import Mathlib

/-!
# Verification of `gestion_tareas.py` (task manager with a lazy-deletion priority queue)

Shallow embedding of the task store `GestorTareas`:

* tasks are dictionaries with fields `nombre`, `prioridad`, `fecha_vencimiento`
  (a `YYYY-MM-DD` string) and `dependencias`;
* `self.tareas` is a CPython `heapq` binary min-heap over tuples
  `(-prioridad, fecha_vencimiento, tarea)`; the tuple comparison compares the
  integer, then the parsed date, and finally — when both agree and the task
  dictionaries differ — attempts `dict < dict`, which raises `TypeError`.
  The heap routines (`siftdown`, `siftup`, `heappush`, `heappop`) are
  translated instruction by instruction from the C-accelerated `_heapq`
  module that `import heapq` actually binds (`heapq.py` ends with
  `from _heapq import *`): both sift passes move items by *swapping*, so
  the list is a permutation of its entries at every step.  A raised
  `TypeError` is modelled by returning the list as mutated so far together
  with `false` (the list is mutated in place, so those swaps survive the
  exception);
* persistence is modelled by a `Disco` value carried in the state: `none` is a
  missing file, `some .corrupto` a file that fails JSON decoding, and
  `some (.valido d)` a file holding the JSON object `d`.

Dates are parsed exactly as `datetime.strptime(s, "%Y-%m-%d")` does: four year
digits, one or two month digits in 1..12, one or two day digits in 1..31, and
the `datetime` constructor check `1 ≤ year` and `day ≤ days_in_month`.
-/

/-- A calendar date at day granularity, as produced by `datetime.strptime`. -/
structure Fecha where
  y : Nat
  m : Nat
  d : Nat
deriving DecidableEq, Repr

/-- The `datetime` comparison between day-granularity dates: lexicographic on
(year, month, day). -/
def fechaLtB (a b : Fecha) : Bool :=
  decide (a.y < b.y) ||
    (decide (a.y = b.y) &&
      (decide (a.m < b.m) || (decide (a.m = b.m) && decide (a.d < b.d))))

/-- Non-strict `datetime` comparison. -/
def fechaLeB (a b : Fecha) : Bool :=
  !(fechaLtB b a)

/-- Leap years, as in the `datetime` module. -/
def esBisiesto (y : Nat) : Bool :=
  y % 4 = 0 && (y % 100 ≠ 0 || y % 400 = 0)

/-- Number of days of a month, as in the `datetime` module. -/
def diasEnMes (y m : Nat) : Nat :=
  if m = 2 then (if esBisiesto y then 29 else 28)
  else if m = 4 || m = 6 || m = 9 || m = 11 then 30
  else 31

/-- Python `str.split("-")` on the character list: splits at every dash, keeping
empty fragments, exactly like Python's `split`. -/
def separaGuiones : List Char → List (List Char)
  | [] => [[]]
  | c :: cs =>
    if c = '-' then [] :: separaGuiones cs
    else
      match separaGuiones cs with
      | g :: gs => (c :: g) :: gs
      | [] => [[c]]

/-- Decimal value of a digit string (most significant first). -/
def digitosANat (acc : Nat) : List Char → Nat
  | [] => acc
  | c :: cs => digitosANat (acc * 10 + (c.toNat - '0'.toNat)) cs

/-- A non-empty all-digit field, as matched by the `\d`-based fragments of
the `_strptime` regular expression, converted with `int`. -/
def campoNat (cs : List Char) : Option Nat :=
  if cs ≠ [] ∧ cs.all Char.isDigit then some (digitosANat 0 cs) else none

/-- Model of `datetime.strptime(s, "%Y-%m-%d")`: the `_strptime` regular expression
demands exactly four year digits, a month of one or two digits matching
`1[0-2]|0[1-9]|[1-9]`, a day of one or two digits matching
`3[01]|[12]\d|0[1-9]|[1-9]`, with nothing left over; the `datetime`
constructor then rejects year `0` and days past the end of the month.
(Digits are taken as ASCII.) -/
def strptimeYmd (s : String) : Option Fecha :=
  match separaGuiones s.toList with
  | [ys, ms, ds] =>
    match campoNat ys, campoNat ms, campoNat ds with
    | some y, some m, some d =>
      if ys.length = 4 ∧ (ms.length = 1 ∨ ms.length = 2) ∧
          (ds.length = 1 ∨ ds.length = 2) ∧ 1 ≤ m ∧ m ≤ 12 ∧ 1 ≤ d ∧ d ≤ 31 ∧
          1 ≤ y ∧ d ≤ diasEnMes y m then
        some ⟨y, m, d⟩
      else none
    | _, _, _ => none
  | _ => none

/-- The ASCII digit with value `n % 10`. -/
def digitoChar (n : Nat) : Char := Char.ofNat ('0'.toNat + n % 10)

/-- Two-digit zero-padded rendering, as `strftime` does for `%m` and `%d`. -/
def dosDigitos (n : Nat) : List Char :=
  [digitoChar (n / 10), digitoChar n]

/-- Four-digit zero-padded rendering, as `strftime` does for `%Y` (every
stored year fits, having been parsed from four digits). -/
def cuatroDigitos (n : Nat) : List Char :=
  [digitoChar (n / 1000), digitoChar (n / 100), digitoChar (n / 10),
    digitoChar n]

/-- Model of `fecha.strftime("%Y-%m-%d")`. -/
def strftimeYmd (f : Fecha) : String :=
  String.mk (cuatroDigitos f.y ++ '-' :: dosDigitos f.m ++ '-' :: dosDigitos f.d)

/-- The task dictionary built by `agregar_tarea` (and read back by
`cargar_datos`): name, priority, due-date string, dependency names. -/
structure Tarea where
  nombre : String
  prioridad : Int
  fecha_vencimiento : String
  dependencias : List String
deriving DecidableEq, Repr

/-- A heap entry: the tuple `(-prioridad, fecha_vencimiento, tarea)` pushed by
`agregar_tarea`. -/
abbrev Entry := Int × Fecha × Tarea

/-- Default entry used for total indexing (never observed at in-range
indices). -/
def dE : Entry := (0, ⟨0, 0, 0⟩, ⟨"", 0, "", []⟩)

/-- The part of an entry that the tuple order actually compares before
reaching the dictionary: `(-prioridad, fecha)`. -/
def key (e : Entry) : Int × Fecha := (e.1, e.2.1)

/-- Strict lexicographic order on heap keys. -/
def keyLtB (a b : Int × Fecha) : Bool :=
  decide (a.1 < b.1) || (decide (a.1 = b.1) && fechaLtB a.2 b.2)

/-- Python's `<` on two heap tuples `(-prioridad, fecha, tarea)`: the first
differing component decides; if the integers and dates agree the tuple
comparison evaluates `dict < dict`, a `TypeError` (modelled by `.error ()`)
unless the dictionaries are equal, in which case the tuples compare by length
and `<` is `false`. -/
def entLT (a b : Entry) : Except Unit Bool :=
  if a.1 = b.1 then
    if a.2.1 = b.2.1 then
      if a.2.2 = b.2.2 then .ok false else .error ()
    else .ok (fechaLtB a.2.1 b.2.1)
  else .ok (decide (a.1 < b.1))

/-- The C `_heapq` `siftdown(heap, startpos, pos)`: while the item at `pos`
compares below its parent, *swap* it with the parent and move up; a
`TypeError` in a comparison aborts, leaving the swaps performed so far in
place.  `fuel ≥ pos` makes the recursion total without changing the computed
value. -/
def siftdownAux : Nat → List Entry → Nat → Nat → List Entry × Bool
  | 0, heap, _, _ => (heap, true)
  | fuel + 1, heap, startpos, pos =>
    if startpos < pos then
      let parentpos := (pos - 1) / 2
      let newitem := heap.getD pos dE
      let parent := heap.getD parentpos dE
      match entLT newitem parent with
      | .error _ => (heap, false)
      | .ok true =>
        siftdownAux fuel ((heap.set parentpos newitem).set pos parent)
          startpos parentpos
      | .ok false => (heap, true)
    else (heap, true)

/-- The C `_heapq` `siftup(heap, pos)` (with its trailing `siftdown` call):
while `pos` has a child inside `endpos`, pick the smaller child (the right
one when the left is not strictly smaller), *swap* it with the item at
`pos`, and descend; once at the bottom, bubble the item back up with
`siftdown`.  `endpos` is `len(heap)`; `fuel ≥ endpos - pos` suffices. -/
def siftupAux : Nat → List Entry → Nat → Nat → List Entry × Bool
  | 0, heap, pos, _ => siftdownAux pos heap 0 pos
  | fuel + 1, heap, pos, endpos =>
    let childpos := 2 * pos + 1
    if childpos < endpos then
      let rightpos := childpos + 1
      match (if rightpos < endpos then
          entLT (heap.getD childpos dE) (heap.getD rightpos dE)
        else .ok true) with
      | .error _ => (heap, false)
      | .ok b =>
        let cp := if b then childpos else rightpos
        siftupAux fuel
          ((heap.set pos (heap.getD cp dE)).set cp (heap.getD pos dE))
          cp endpos
    else
      siftdownAux pos heap 0 pos

/-- Model of `heapq.heappush(heap, item)`. -/
def heappush (heap : List Entry) (item : Entry) : List Entry × Bool :=
  let h := heap ++ [item]
  siftdownAux (h.length - 1) h 0 (h.length - 1)

/-- Model of `heapq.heappop(heap)` on a non-empty heap: pop the last element, move it
to the root, and sift; returns the former root.  The caller
(`obtener_siguiente_tarea`) only invokes it on non-empty heaps. -/
def heappop (heap : List Entry) : List Entry × Except Unit Entry :=
  let lastelt := heap.getD (heap.length - 1) dE
  let rest := heap.dropLast
  if rest.length ≠ 0 then
    let returnitem := rest.getD 0 dE
    let rest2 := rest.set 0 lastelt
    match siftupAux rest2.length rest2 0 rest2.length with
    | (h, true) => (h, .ok returnitem)
    | (h, false) => (h, .error ())
  else (rest, .ok lastelt)

/-- Serialized task list plus completed names: the JSON object
`{"tareas": [...], "completadas": [...]}` written by `guardar_datos`.  Each
serialized task record carries the same four fields as an in-memory task, with
`prioridad` stored un-negated, so we reuse `Tarea`. -/
structure Datos where
  tareas : List Tarea
  completadas : List String
deriving DecidableEq, Repr

/-- Contents of the persistence file: either a JSON document of the expected
shape or something `json.load` fails on. -/
inductive ArchivoContenido
  | valido (datos : Datos)
  | corrupto
deriving DecidableEq, Repr

/-- The persistence file: `none` when the file does not exist. -/
abbrev Disco := Option ArchivoContenido

/-- The exceptions the store can raise: the three `ValueError`s with their
distinct messages ("La prioridad debe ser un número entero no negativo.",
"La fecha de vencimiento debe tener el formato AAAA-MM-DD.", "El criterio de
ordenación debe ser 'prioridad' o 'fecha'."), the `TypeError` from comparing
dictionaries inside `heapq`, `json.JSONDecodeError` from `json.load`, and the
`ValueError` raised by `datetime.strptime` on a stored date string. -/
inductive Err
  | invalidPrioridad
  | invalidFecha
  | invalidCriterio
  | typeError
  | jsonDecodeError
  | strptimeError
deriving DecidableEq, Repr

/-- A Python value passed as the `prioridad` argument: an `int`, or any value
that is not an instance of `int`. -/
inductive Valor
  | entero (n : Int)
  | otro
deriving DecidableEq, Repr

/-- The state of a `GestorTareas` instance together with its persistence
file: `tareas` is the heap list, `tareas_completadas` the completed-name set
(a duplicate-free list standing for the Python `set`), `disco` the file. -/
structure Estado where
  tareas : List Entry
  tareas_completadas : List String
  disco : Disco
deriving DecidableEq, Repr

/-- The JSON object assembled by `guardar_datos`: each heap tuple `(p, _, t)`
is written as `{"prioridad": -p, "fecha_vencimiento": t["fecha_vencimiento"],
"nombre": t["nombre"], "dependencias": t["dependencias"]}`, and `completadas`
is the completed set. -/
def datosDe (tareas : List Entry) (completadas : List String) : Datos :=
  { tareas := tareas.map (fun x =>
      { nombre := x.2.2.nombre
        prioridad := -x.1
        fecha_vencimiento := x.2.2.fecha_vencimiento
        dependencias := x.2.2.dependencias })
    completadas := completadas }

/-- Method `guardar_datos`: overwrite the file with the serialized state. -/
def guardarDatos (e : Estado) : Estado :=
  { e with disco := some (.valido (datosDe e.tareas e.tareas_completadas)) }

/-- Method `agregar_tarea(nombre, prioridad, fecha_vencimiento, dependencias=None)`.
Validation order as in the source: `isinstance(prioridad, int)` and
non-negativity first, then the `dependencias` default, then `strptime` on the
date.  On success the entry `(-prioridad, fecha, tarea)` is pushed (the task
dictionary stores the `strftime`-normalized date string) and the state is
persisted.  A `TypeError` inside `heappush` leaves the partially sifted list
in place and skips the save, as in Python. -/
def agregarTarea (e : Estado) (nombre : String) (prioridad : Valor)
    (fecha_vencimiento : String) (dependencias : Option (List String)) :
    Estado × Except Err Unit :=
  match prioridad with
  | .otro => (e, .error .invalidPrioridad)
  | .entero p =>
    if p < 0 then (e, .error .invalidPrioridad)
    else
      let deps := dependencias.getD []
      match strptimeYmd fecha_vencimiento with
      | none => (e, .error .invalidFecha)
      | some f =>
        let tarea : Tarea :=
          { nombre := nombre
            prioridad := p
            fecha_vencimiento := strftimeYmd f
            dependencias := deps }
        match heappush e.tareas (-p, f, tarea) with
        | (t', true) => (guardarDatos { e with tareas := t' }, .ok ())
        | (t', false) => ({ e with tareas := t' }, .error .typeError)

/-- The list comprehension in `listar_tareas`: task dictionaries of heap
entries, in heap-array order, whose name is not completed. -/
def tareasPendientes (e : Estado) : List Tarea :=
  (e.tareas.map (fun x => x.2.2)).filter
    (fun t => !decide (t.nombre ∈ e.tareas_completadas))

/-- The keys computed by `sorted(..., key=lambda t: datetime.strptime(...))`:
each task is decorated with its parsed due date, failing with the `strptime`
`ValueError` on the first unparseable date string. -/
def decorarFechas : List Tarea → Except Err (List (Fecha × Tarea))
  | [] => .ok []
  | t :: ts =>
    match strptimeYmd t.fecha_vencimiento with
    | none => .error .strptimeError
    | some f =>
      match decorarFechas ts with
      | .error err => .error err
      | .ok ds => .ok ((f, t) :: ds)

/-- The comparison `sorted` uses for `ordenar_por="fecha"`: ascending parsed
due date (`key=lambda t: datetime.strptime(...)`). -/
def ordFecha (a b : Fecha × Tarea) : Prop :=
  fechaLeB a.1 b.1 = true

instance : DecidableRel ordFecha := fun a b =>
  decidable_of_iff (fechaLeB a.1 b.1 = true) Iff.rfl

/-- The comparison `sorted` uses for `ordenar_por="prioridad"` with
`reverse=True`: descending priority. -/
def ordPrioridad (a b : Tarea) : Prop :=
  b.prioridad ≤ a.prioridad

instance : DecidableRel ordPrioridad := fun a b =>
  Int.decLe b.prioridad a.prioridad

instance : IsTotal (Fecha × Tarea) ordFecha :=
  ⟨by
    intro a b
    obtain ⟨⟨ay, am, ad⟩, _⟩ := a
    obtain ⟨⟨by1, bm, bd⟩, _⟩ := b
    unfold ordFecha fechaLeB
    simp only [Bool.not_eq_true', ← Bool.not_eq_true]
    simp only [fechaLtB, Bool.or_eq_true, Bool.and_eq_true, decide_eq_true_eq]
    omega⟩

instance : IsTrans (Fecha × Tarea) ordFecha :=
  ⟨by
    intro a b c hab hbc
    obtain ⟨⟨ay, am, ad⟩, _⟩ := a
    obtain ⟨⟨by1, bm, bd⟩, _⟩ := b
    obtain ⟨⟨cy, cm, cd⟩, _⟩ := c
    unfold ordFecha fechaLeB at hab hbc ⊢
    simp only [Bool.not_eq_true', ← Bool.not_eq_true] at hab hbc ⊢
    simp only [fechaLtB, Bool.or_eq_true, Bool.and_eq_true,
      decide_eq_true_eq] at hab hbc ⊢
    omega⟩

instance : IsTotal Tarea ordPrioridad :=
  ⟨fun a b => (Int.le_total b.prioridad a.prioridad).imp id id⟩

instance : IsTrans Tarea ordPrioridad :=
  ⟨fun _ _ _ hab hbc => Int.le_trans hbc hab⟩

/-- Method `listar_tareas(ordenar_por)`: filter out completed names, then a stable
sort — ascending by parsed date for `"fecha"`, descending by priority
(`reverse=True`) for `"prioridad"` — and a `ValueError` otherwise.  Python's
`sorted` is a stable sort, which `List.insertionSort` with a total reflexive
comparison reproduces exactly.  The function reads the state and returns a
fresh list: it performs no mutation and no save. -/
def listarTareas (e : Estado) (ordenar_por : String) : Except Err (List Tarea) :=
  let pendientes := tareasPendientes e
  if ordenar_por = "fecha" then
    match decorarFechas pendientes with
    | .error err => .error err
    | .ok ds =>
      .ok ((ds.insertionSort ordFecha).map (fun x => x.2))
  else if ordenar_por = "prioridad" then
    .ok (pendientes.insertionSort ordPrioridad)
  else .error .invalidCriterio

/-- Method `completar_tarea(nombre)`: if the name is already completed, print the
notice (returned Boolean `true`) and change nothing; otherwise add the name to
the set and persist. -/
def completarTarea (e : Estado) (nombre : String) : Estado × Bool :=
  if nombre ∈ e.tareas_completadas then (e, true)
  else
    (guardarDatos { e with tareas_completadas := nombre :: e.tareas_completadas },
      false)

/-- The `while self.tareas:` loop of `obtener_siguiente_tarea`: look at the
root, return its task if not completed, otherwise `heappop` and retry; `none`
once the heap is empty.  `fuel ≥ length` suffices since every `heappop`
removes one element.  A `TypeError` inside `heappop` propagates, keeping the
list as mutated so far. -/
def obtenerAux : Nat → List Entry → List String →
    List Entry × Except Unit (Option Tarea)
  | 0, tareas, _ => (tareas, .ok none)
  | fuel + 1, tareas, comps =>
    if tareas.length ≠ 0 then
      let tarea := (tareas.getD 0 dE).2.2
      if tarea.nombre ∈ comps then
        match heappop tareas with
        | (t', .ok _) => obtenerAux fuel t' comps
        | (t', .error err) => (t', .error err)
      else (tareas, .ok (some tarea))
    else (tareas, .ok none)

/-- Method `obtener_siguiente_tarea()`. -/
def obtenerSiguienteTarea (e : Estado) : Estado × Except Unit (Option Tarea) :=
  let r := obtenerAux e.tareas.length e.tareas e.tareas_completadas
  ({ e with tareas := r.1 }, r.2)

/-- The `for _, _, tarea in self.tareas:` loop of `es_ejecutable`: on the
first entry whose task has the given name, answer whether every dependency is
completed; `false` when no entry matches. -/
def esEjecutableLista (nombre : String) (comps : List String) :
    List Entry → Bool
  | [] => false
  | x :: xs =>
    if x.2.2.nombre = nombre then
      x.2.2.dependencias.all (fun dep => decide (dep ∈ comps))
    else esEjecutableLista nombre comps xs

/-- Method `es_ejecutable(nombre)`. -/
def esEjecutable (e : Estado) (nombre : String) : Bool :=
  esEjecutableLista nombre e.tareas_completadas e.tareas

/-- Method `cargar_datos()`: a missing file yields the empty store; a file that
`json.load` rejects propagates its error; otherwise every stored task `t`
becomes the heap tuple `(-t["prioridad"], strptime(t["fecha_vencimiento"]),
t)`, `strptime` failures propagating. -/
def cargarDatos (disco : Disco) : Except Err (List Entry × List String) :=
  match disco with
  | none => .ok ([], [])
  | some .corrupto => .error .jsonDecodeError
  | some (.valido datos) =>
    match decorarFechas datos.tareas with
    | .error err => .error err
    | .ok ds => .ok (ds.map (fun x => (-x.2.prioridad, x.1, x.2)), datos.completadas)

/-- Constructor `GestorTareas.__init__`: construct the store by loading the file; any
load failure other than a missing file is a construction failure. -/
def inicializar (disco : Disco) : Except Err Estado :=
  match cargarDatos disco with
  | .error err => .error err
  | .ok (t, c) => .ok { tareas := t, tareas_completadas := c, disco := disco }

/-- The binary-heap invariant `heapq` maintains on `self.tareas`: no child
tuple compares strictly below its parent on the `(-prioridad, fecha)` part of
the key. -/
def IsHeapL (l : List Entry) : Prop :=
  ∀ i, i < l.length → 0 < i →
    keyLtB (key (l.getD i dE)) (key (l.getD ((i - 1) / 2) dE)) = false

instance : DecidablePred IsHeapL := fun l =>
  decidable_of_iff (∀ i < l.length, 0 < i →
      keyLtB (key (l.getD i dE)) (key (l.getD ((i - 1) / 2) dE)) = false)
    Iff.rfl

/-- No two heap entries share the `(-prioridad, fecha)` comparison key. -/
def ClavesDistintas (l : List Entry) : Prop :=
  List.Pairwise (fun a b => key a ≠ key b) l

instance : DecidablePred ClavesDistintas := fun _ =>
  List.instDecidablePairwise _

/-- Each heap tuple stores `-prioridad` of its own task dictionary — true of
every entry built by `agregar_tarea` or `cargar_datos`. -/
def Coherente (l : List Entry) : Prop :=
  ∀ x ∈ l, x.1 = -x.2.2.prioridad

instance : DecidablePred Coherente := fun l =>
  List.decidableBAll _ l

/-- Every stored due-date string parses back — true of every entry built by
`agregar_tarea` or `cargar_datos`, whose date strings come from `strftime`
or were successfully parsed at load time. -/
def FechasParsean (l : List Entry) : Prop :=
  ∀ x ∈ l, (strptimeYmd x.2.2.fecha_vencimiento).isSome = true

instance : DecidablePred FechasParsean := fun l =>
  List.decidableBAll _ l

/-- Comparison of two due-date strings by their parsed dates. -/
def fechaStrLeB (a b : String) : Bool :=
  match strptimeYmd a, strptimeYmd b with
  | some fa, some fb => fechaLeB fa fb
  | _, _ => false

/-- Occurrence count in a list, used to state multiset preservation without
tying the statement to a particular `BEq` instance. -/
def cuenta {α : Type} [DecidableEq α] (x : α) : List α → Nat
  | [] => 0
  | y :: ys => (if y = x then 1 else 0) + cuenta x ys

/-- A sample due date shared by the concrete example stores. -/
def fechaEj : Fecha := ⟨2025, 1, 10⟩

/-- An entry as `agregar_tarea` would build it for the sample date. -/
def entradaDe (nombre : String) (p : Int) : Entry :=
  (-p, fechaEj, ⟨nombre, p, strftimeYmd fechaEj, []⟩)

/-- An entry as `agregar_tarea` would build it for a chosen date. -/
def entradaFecha (nombre : String) (p : Int) (f : Fecha) : Entry :=
  (-p, f, ⟨nombre, p, strftimeYmd f, []⟩)

/-- A store as freshly constructed with no persistence file. -/
def estadoVacio : Estado := ⟨[], [], none⟩

/-- Store with heap `[W(9), X(5), Z(5)]` (equal dates) and `W` completed:
two entries tie on the `(-prioridad, fecha)` key. -/
def exC1 : Estado :=
  ⟨[entradaDe "W" 9, entradaDe "X" 5, entradaDe "Z" 5], ["W"], none⟩

/-- The same heap and completed set, built by three `agregar_tarea` calls on
a fresh store followed by `completar_tarea("W")`. -/
def reachC1 : Estado :=
  (completarTarea
    (agregarTarea
      (agregarTarea
        (agregarTarea estadoVacio "W" (.entero 9) "2025-01-10" none).1
        "X" (.entero 5) "2025-01-10" none).1
      "Z" (.entero 5) "2025-01-10" none).1
    "W").1

/-- Store with a seven-entry heap whose positions 3 and 4 tie on the key,
with the root `R` completed and the not-completed `L` sitting last. -/
def exC10 : Estado :=
  ⟨[entradaDe "R" 9, entradaDe "A" 5, entradaDe "B" 4, entradaDe "C" 3,
    entradaDe "D" 3, entradaDe "E" 2, entradaDe "L" 1], ["R"], none⟩

/-- The same heap and completed set, built by seven `agregar_tarea` calls on
a fresh store followed by `completar_tarea("R")`. -/
def reachC10 : Estado :=
  (completarTarea
    (agregarTarea
      (agregarTarea
        (agregarTarea
          (agregarTarea
            (agregarTarea
              (agregarTarea
                (agregarTarea estadoVacio "R" (.entero 9) "2025-01-10" none).1
                "A" (.entero 5) "2025-01-10" none).1
              "B" (.entero 4) "2025-01-10" none).1
            "C" (.entero 3) "2025-01-10" none).1
          "D" (.entero 3) "2025-01-10" none).1
        "E" (.entero 2) "2025-01-10" none).1
      "L" (.entero 1) "2025-01-10" none).1
    "R").1

/-- Store with pairwise-distinct keys and a completed root. -/
def exW1 : Estado :=
  ⟨[entradaDe "P" 7, entradaDe "Q" 5, entradaDe "S" 3], ["P"], none⟩

/-- Store with two distinct-priority tasks and nothing completed. -/
def exC3 : Estado := ⟨[entradaDe "X" 5, entradaDe "Y" 3], [], none⟩

/-- Store with one task `A` depending on `B` and `C`, both completed. -/
def exC4 : Estado :=
  ⟨[(-5, fechaEj, ⟨"A", 5, strftimeYmd fechaEj, ["B", "C"]⟩)], ["B", "C"], none⟩

/-- Store with two tasks due on different dates. -/
def exC8 : Estado :=
  ⟨[entradaFecha "P" 7 ⟨2025, 1, 10⟩, entradaFecha "Q" 5 ⟨2025, 1, 5⟩], [], none⟩

/-- First `agregar_tarea` call of the duplicate-key scenario. -/
def pasoC2a : Estado × Except Err Unit :=
  agregarTarea estadoVacio "A" (.entero 5) "2025-01-10" none

/-- Second `agregar_tarea` call: same priority and due date, another name. -/
def pasoC2b : Estado × Except Err Unit :=
  agregarTarea pasoC2a.1 "B" (.entero 5) "2025-01-10" none

/-- A well-formed persistence file. -/
def datosEj : Datos := ⟨[⟨"T", 4, "2025-01-10", ["U"]⟩], ["U"]⟩

/-- A persistence file whose stored due date does not parse. -/
def datosMal : Datos := ⟨[⟨"T", 4, "no-date", []⟩], []⟩

/-! ## Order facts about heap keys -/

theorem keyLtB_asymm {a b : Int × Fecha} (h : keyLtB a b = true) :
    keyLtB b a = false := by
  obtain ⟨a1, ay, am, ad⟩ := a
  obtain ⟨b1, by1, bm, bd⟩ := b
  rw [← Bool.not_eq_true]
  simp only [keyLtB, fechaLtB, Bool.or_eq_true, Bool.and_eq_true,
    decide_eq_true_eq, Prod.mk.injEq, Fecha.mk.injEq] at h ⊢
  omega

theorem keyLtB_le_trans {a b c : Int × Fecha} (hab : keyLtB b a = false)
    (hbc : keyLtB c b = false) : keyLtB c a = false := by
  obtain ⟨a1, ay, am, ad⟩ := a
  obtain ⟨b1, by1, bm, bd⟩ := b
  obtain ⟨c1, cy, cm, cd⟩ := c
  rw [← Bool.not_eq_true] at hab hbc ⊢
  simp only [keyLtB, fechaLtB, Bool.or_eq_true, Bool.and_eq_true,
    decide_eq_true_eq, Prod.mk.injEq, Fecha.mk.injEq] at hab hbc ⊢
  omega

theorem keyLtB_total_of_ne {a b : Int × Fecha} (h : a ≠ b)
    (h2 : keyLtB a b = false) : keyLtB b a = true := by
  obtain ⟨a1, ay, am, ad⟩ := a
  obtain ⟨b1, by1, bm, bd⟩ := b
  rw [← Bool.not_eq_true] at h2
  simp only [ne_eq, Prod.mk.injEq, Fecha.mk.injEq, not_and] at h
  simp only [keyLtB, fechaLtB, Bool.or_eq_true, Bool.and_eq_true,
    decide_eq_true_eq, Prod.mk.injEq, Fecha.mk.injEq] at h2 ⊢
  by_cases hy : a1 = b1 <;> simp [hy] at h ⊢ <;> omega

theorem keyLtB_false_fst {a b : Int × Fecha} (h : keyLtB a b = false) :
    b.1 ≤ a.1 := by
  obtain ⟨a1, a2⟩ := a
  obtain ⟨b1, b2⟩ := b
  rw [← Bool.not_eq_true] at h
  simp only [keyLtB, Bool.or_eq_true, Bool.and_eq_true, decide_eq_true_eq] at h ⊢
  omega

/-- On entries with distinct comparison keys, the Python tuple comparison
never reaches the dictionaries and yields the key order. -/
theorem entLT_eq_of_key_ne {a b : Entry} (h : key a ≠ key b) :
    entLT a b = .ok (keyLtB (key a) (key b)) := by
  obtain ⟨a1, af, at'⟩ := a
  obtain ⟨b1, bf, bt⟩ := b
  simp only [key, ne_eq, Prod.mk.injEq, not_and] at h
  simp only [entLT, key, keyLtB]
  by_cases h1 : a1 = b1
  · have hf : af ≠ bf := h h1
    simp [h1, hf]
  · simp [h1]

/-! ## List bookkeeping helpers -/

theorem getD_set_self {α : Type} {l : List α} {i : Nat} {a d : α}
    (h : i < l.length) : (l.set i a).getD i d = a := by
  rw [List.getD_eq_getElem?_getD, List.getElem?_set_self h]
  rfl

theorem getD_set_ne {α : Type} {l : List α} {i j : Nat} {a d : α}
    (h : i ≠ j) : (l.set i a).getD j d = l.getD j d := by
  rw [List.getD_eq_getElem?_getD, List.getElem?_set_ne h,
    ← List.getD_eq_getElem?_getD]

/-- Split a list at a valid index into prefix, element and suffix. -/
theorem list_decomp {α : Type} (l : List α) (i : Nat) (d : α)
    (h : i < l.length) : l = l.take i ++ l.getD i d :: l.drop (i + 1) := by
  conv_lhs => rw [← List.take_append_drop (i + 1) l]
  rw [List.take_succ, List.getD_eq_getElem _ _ h, List.getElem?_eq_getElem h]
  simp

theorem count_set_plus {α : Type} [DecidableEq α] {l : List α} {i : Nat}
    {d : α} (h : i < l.length) (a x : α) :
    (l.set i a).count x + (if l.getD i d = x then 1 else 0)
      = l.count x + (if a = x then 1 else 0) := by
  rw [List.set_eq_take_cons_drop a h]
  conv_rhs => rw [list_decomp l i d h]
  simp only [List.count_append, List.count_cons, beq_iff_eq]
  split <;> split <;> omega

theorem count_eraseIdx_plus {α : Type} [DecidableEq α] {l : List α} {i : Nat}
    {d : α} (h : i < l.length) (x : α) :
    (l.eraseIdx i).count x + (if l.getD i d = x then 1 else 0) = l.count x := by
  rw [List.eraseIdx_eq_take_drop_succ]
  conv_rhs => rw [list_decomp l i d h]
  simp only [List.count_append, List.count_cons, beq_iff_eq]
  split <;> omega

theorem perm_set_cons_eraseIdx {α : Type} {l : List α} {i : Nat}
    (h : i < l.length) (a : α) : (l.set i a).Perm (a :: l.eraseIdx i) := by
  rw [List.set_eq_take_cons_drop a h, List.eraseIdx_eq_take_drop_succ]
  exact List.perm_middle

theorem perm_cons_getD_eraseIdx {α : Type} {l : List α} {i : Nat} (d : α)
    (h : i < l.length) : l.Perm (l.getD i d :: l.eraseIdx i) := by
  conv_lhs => rw [list_decomp l i d h]
  rw [List.eraseIdx_eq_take_drop_succ]
  exact List.perm_middle

theorem eraseIdx_set_same {α : Type} (l : List α) (i : Nat) (a : α) :
    (l.set i a).eraseIdx i = l.eraseIdx i := by
  induction l generalizing i with
  | nil => rfl
  | cons x xs ih =>
    cases i with
    | zero => rfl
    | succ j => simp [List.set_cons_succ, List.eraseIdx_cons_succ, ih]

/-- Writing the value of index `j` into index `i` and then erasing index `j`
is, as a multiset, the same as erasing index `i`. -/
theorem eraseIdx_set_perm {α : Type} [DecidableEq α] {l : List α} {i j : Nat}
    (d : α) (hij : i ≠ j) (hi : i < l.length) (hj : j < l.length) :
    ((l.set i (l.getD j d)).eraseIdx j).Perm (l.eraseIdx i) := by
  rw [List.perm_iff_count]
  intro x
  have hj' : j < (l.set i (l.getD j d)).length := by
    rw [List.length_set]; exact hj
  have h1 := count_eraseIdx_plus (d := d) hj' x
  have h2 := count_set_plus (d := d) hi (l.getD j d) x
  have h3 := count_eraseIdx_plus (d := d) hi x
  rw [getD_set_ne hij] at h1
  split_ifs at h1 h2 h3 <;> omega

/-- Swapping the entries at two distinct valid indices permutes the list. -/
theorem swap_perm {α : Type} [DecidableEq α] {l : List α} {i j : Nat} (d : α)
    (hij : i ≠ j) (hi : i < l.length) (hj : j < l.length) :
    ((l.set i (l.getD j d)).set j (l.getD i d)).Perm l := by
  rw [List.perm_iff_count]
  intro x
  have h1 := count_set_plus (d := d) hi (l.getD j d) x
  have hj2 : j < (l.set i (l.getD j d)).length := by
    rw [List.length_set]; exact hj
  have h2 := count_set_plus (d := d) hj2 (l.getD i d) x
  rw [getD_set_ne hij] at h2
  split_ifs at h1 h2 <;> omega

theorem keyLtB_irrefl (a : Int × Fecha) : keyLtB a a = false := by
  obtain ⟨a1, ay, am, ad⟩ := a
  rw [← Bool.not_eq_true]
  simp only [keyLtB, fechaLtB, Bool.or_eq_true, Bool.and_eq_true,
    decide_eq_true_eq]
  omega

theorem keyLtB_lt_trans {a b c : Int × Fecha} (hab : keyLtB a b = true)
    (hbc : keyLtB b c = true) : keyLtB a c = true := by
  obtain ⟨a1, ay, am, ad⟩ := a
  obtain ⟨b1, by1, bm, bd⟩ := b
  obtain ⟨c1, cy, cm, cd⟩ := c
  simp only [keyLtB, fechaLtB, Bool.or_eq_true, Bool.and_eq_true,
    decide_eq_true_eq, Prod.mk.injEq, Fecha.mk.injEq] at hab hbc ⊢
  omega

/-- In a `heapq` heap the root is minimal: no entry compares strictly below
`heap[0]`. -/
theorem isHeap_root_min {l : List Entry} (hh : IsHeapL l) :
    ∀ i, i < l.length →
      keyLtB (key (l.getD i dE)) (key (l.getD 0 dE)) = false := by
  intro i
  induction i using Nat.strong_induction_on with
  | _ i ih =>
    intro hi
    rcases Nat.eq_zero_or_pos i with h0 | h0
    · subst h0; exact keyLtB_irrefl _
    · have hp : (i - 1) / 2 < i := by omega
      have h1 := hh i hi h0
      have h2 := ih ((i - 1) / 2) hp (lt_trans hp hi)
      exact keyLtB_le_trans h2 h1

/-- Correctness of the bubble-up pass `siftdown` (with `startpos = 0`, as in
both of its call sites) on the success path.  The invariant, about the array
holding the moving item at the hole `pos`: (i) every parent/child pair
avoiding `pos` already satisfies the heap relation; (ii) when `pos` has a
parent, the children of `pos` are not below that parent; (iii) the children
of `pos` are not below the item at `pos`; (iv) no entry outside the hole
shares a comparison key with the item at `pos`.  Then the pass succeeds (no
`TypeError`), produces a heap, and permutes the array. -/
theorem siftdownAux_spec :
    ∀ (fuel : Nat) (l : List Entry) (pos : Nat),
    pos ≤ fuel → pos < l.length →
    (∀ c, c < l.length → 0 < c → c ≠ pos → (c - 1) / 2 ≠ pos →
      keyLtB (key (l.getD c dE)) (key (l.getD ((c - 1) / 2) dE)) = false) →
    (∀ c, c < l.length → 0 < c → (c - 1) / 2 = pos → 0 < pos →
      keyLtB (key (l.getD c dE)) (key (l.getD ((pos - 1) / 2) dE)) = false) →
    (∀ c, c < l.length → 0 < c → (c - 1) / 2 = pos →
      keyLtB (key (l.getD c dE)) (key (l.getD pos dE)) = false) →
    (∀ i, i < l.length → i ≠ pos → key (l.getD i dE) ≠ key (l.getD pos dE)) →
    ∃ C, siftdownAux fuel l 0 pos = (C, true) ∧ IsHeapL C ∧ C.Perm l := by
  intro fuel
  induction fuel with
  | zero =>
    intro l pos hfuel hpos h1 h2 h3 h4
    have hp0 : pos = 0 := Nat.le_zero.mp hfuel
    subst hp0
    refine ⟨l, rfl, ?_, List.Perm.refl l⟩
    intro c hc hc0
    by_cases hpar : (c - 1) / 2 = 0
    · rw [hpar]
      exact h3 c hc hc0 hpar
    · exact h1 c hc hc0 (Nat.pos_iff_ne_zero.mp hc0) hpar
  | succ fuel ih =>
    intro l pos hfuel hpos h1 h2 h3 h4
    by_cases hp : 0 < pos
    · -- the loop body runs
      have hparlt : (pos - 1) / 2 < pos := by omega
      have hparne : (pos - 1) / 2 ≠ pos := Nat.ne_of_lt hparlt
      have hparlen : (pos - 1) / 2 < l.length := lt_trans hparlt hpos
      have hkne : key (l.getD pos dE) ≠ key (l.getD ((pos - 1) / 2) dE) :=
        fun h => h4 ((pos - 1) / 2) hparlen hparne h.symm
      rcases Bool.eq_false_or_eq_true
          (keyLtB (key (l.getD pos dE)) (key (l.getD ((pos - 1) / 2) dE)))
        with hb | hb
      · -- the item is below the parent: swap them and recurse at the parent
        have hunf : siftdownAux (fuel + 1) l 0 pos
            = siftdownAux fuel
                ((l.set ((pos - 1) / 2) (l.getD pos dE)).set pos
                  (l.getD ((pos - 1) / 2) dE)) 0 ((pos - 1) / 2) := by
          simp only [siftdownAux, if_pos hp]
          rw [entLT_eq_of_key_ne hkne, hb]
        have hlen' : ((l.set ((pos - 1) / 2) (l.getD pos dE)).set pos
            (l.getD ((pos - 1) / 2) dE)).length = l.length := by
          rw [List.length_set, List.length_set]
        have hg_par : ((l.set ((pos - 1) / 2) (l.getD pos dE)).set pos
            (l.getD ((pos - 1) / 2) dE)).getD ((pos - 1) / 2) dE
            = l.getD pos dE := by
          rw [getD_set_ne hparne.symm, getD_set_self hparlen]
        have hg_pos : ((l.set ((pos - 1) / 2) (l.getD pos dE)).set pos
            (l.getD ((pos - 1) / 2) dE)).getD pos dE
            = l.getD ((pos - 1) / 2) dE := by
          have : pos < (l.set ((pos - 1) / 2) (l.getD pos dE)).length := by
            rw [List.length_set]; exact hpos
          exact getD_set_self this
        have hg_ne : ∀ j, j ≠ pos → j ≠ (pos - 1) / 2 →
            ((l.set ((pos - 1) / 2) (l.getD pos dE)).set pos
              (l.getD ((pos - 1) / 2) dE)).getD j dE = l.getD j dE := by
          intro j hj1 hj2
          rw [getD_set_ne (fun h => hj1 h.symm), getD_set_ne (fun h => hj2 h.symm)]
        have hih :=
          ih ((l.set ((pos - 1) / 2) (l.getD pos dE)).set pos
              (l.getD ((pos - 1) / 2) dE)) ((pos - 1) / 2)
            (by omega) (by rw [hlen']; exact hparlen) ?hi1 ?hi2 ?hi3 ?hi4
        case _ =>
          obtain ⟨C, hC, hCheap, hCperm⟩ := hih
          refine ⟨C, hunf.trans hC, hCheap, ?_⟩
          exact hCperm.trans (swap_perm dE hparne hparlen hpos)
        case hi1 => -- invariant (i) at the new hole
          intro c hc hc0 hcne hcparne
          rw [hlen'] at hc
          by_cases hcpos : c = pos
          · exact absurd (by omega : (c - 1) / 2 = (pos - 1) / 2) hcparne
          · by_cases hparc : (c - 1) / 2 = pos
            · have hcgt : pos < c := by omega
              rw [hg_ne c hcpos (by omega), hparc, hg_pos]
              exact h2 c hc hc0 hparc hp
            · rw [hg_ne c hcpos (by omega), hg_ne _ hparc hcparne]
              exact h1 c hc hc0 hcpos hparc
        case hi2 => -- invariant (ii) at the new hole
          intro c hc hc0 hparc hpp0
          rw [hlen'] at hc
          have hgp_lt : ((pos - 1) / 2 - 1) / 2 < (pos - 1) / 2 := by omega
          have hgp_ne : ((pos - 1) / 2 - 1) / 2 ≠ pos :=
            Nat.ne_of_lt (lt_trans hgp_lt hparlt)
          rw [hg_ne _ hgp_ne (Nat.ne_of_lt hgp_lt)]
          have hgp_le : keyLtB (key (l.getD ((pos - 1) / 2) dE))
              (key (l.getD (((pos - 1) / 2 - 1) / 2) dE)) = false :=
            h1 ((pos - 1) / 2) hparlen hpp0 hparne hgp_ne
          by_cases hcpos : c = pos
          · rw [hcpos, hg_pos]
            exact hgp_le
          · have hcgt : (pos - 1) / 2 < c := by omega
            rw [hg_ne c hcpos (by omega)]
            have hsib : keyLtB (key (l.getD c dE))
                (key (l.getD ((pos - 1) / 2) dE)) = false := by
              have hx := h1 c hc hc0 hcpos (by omega)
              rw [hparc] at hx
              exact hx
            exact keyLtB_le_trans hgp_le hsib
        case hi3 => -- invariant (iii) at the new hole
          intro c hc hc0 hparc
          rw [hlen'] at hc
          rw [hg_par]
          by_cases hcpos : c = pos
          · rw [hcpos, hg_pos]
            exact keyLtB_asymm hb
          · have hcgt : (pos - 1) / 2 < c := by omega
            rw [hg_ne c hcpos (by omega)]
            have hsib : keyLtB (key (l.getD c dE))
                (key (l.getD ((pos - 1) / 2) dE)) = false := by
              have hx := h1 c hc hc0 hcpos (by omega)
              rw [hparc] at hx
              exact hx
            rw [← Bool.not_eq_true]
            intro habs
            have htr := keyLtB_lt_trans habs hb
            rw [htr] at hsib
            cases hsib
        case hi4 => -- distinctness around the moving item at the new hole
          intro i hi hine
          rw [hlen'] at hi
          rw [hg_par]
          by_cases hipos : i = pos
          · rw [hipos, hg_pos]
            exact fun h => h4 ((pos - 1) / 2) hparlen hparne h
          · rw [hg_ne i hipos hine]
            exact h4 i hi hipos
      · -- the item does not go below the parent: the loop stops
        have hunf : siftdownAux (fuel + 1) l 0 pos = (l, true) := by
          simp only [siftdownAux, if_pos hp]
          rw [entLT_eq_of_key_ne hkne, hb]
        refine ⟨l, hunf, ?_, List.Perm.refl l⟩
        intro c hc hc0
        by_cases hcpos : c = pos
        · rw [hcpos]
          exact hb
        · by_cases hpar : (c - 1) / 2 = pos
          · rw [hpar]
            exact h3 c hc hc0 hpar
          · exact h1 c hc hc0 hcpos hpar
    · -- pos = 0: the loop does not run
      have hp0 : pos = 0 := by omega
      subst hp0
      have hunf : siftdownAux (fuel + 1) l 0 0 = (l, true) := by
        simp only [siftdownAux, lt_irrefl, if_false]
      refine ⟨l, hunf, ?_, List.Perm.refl l⟩
      intro c hc hc0
      by_cases hpar : (c - 1) / 2 = 0
      · rw [hpar]
        exact h3 c hc hc0 hpar
      · exact h1 c hc hc0 (Nat.pos_iff_ne_zero.mp hc0) hpar

/-- Correctness of `siftup` on the success path: under the same hole
invariants (i) and (ii), pairwise-distinct keys below the hole, and a moving
item (sitting at `pos`) whose key clashes with no other entry, the swap walk
down the min-child path followed by the bubble-up succeeds, produces a heap,
and permutes the array. -/
theorem siftupAux_spec :
    ∀ (fuel : Nat) (l : List Entry) (pos : Nat),
    l.length - pos ≤ fuel → pos < l.length →
    (∀ c, c < l.length → 0 < c → c ≠ pos → (c - 1) / 2 ≠ pos →
      keyLtB (key (l.getD c dE)) (key (l.getD ((c - 1) / 2) dE)) = false) →
    (∀ c, c < l.length → 0 < c → (c - 1) / 2 = pos → 0 < pos →
      keyLtB (key (l.getD c dE)) (key (l.getD ((pos - 1) / 2) dE)) = false) →
    (∀ i j, i < l.length → j < l.length → pos < i → pos < j → i ≠ j →
      key (l.getD i dE) ≠ key (l.getD j dE)) →
    (∀ i, i < l.length → i ≠ pos → key (l.getD i dE) ≠ key (l.getD pos dE)) →
    ∃ C, siftupAux fuel l pos l.length = (C, true) ∧ IsHeapL C ∧
      C.Perm l := by
  intro fuel
  induction fuel with
  | zero =>
    intro l pos hfuel hpos h1 h2 he hf
    exact absurd hpos (by omega)
  | succ fuel ih =>
    intro l pos hfuel hpos h1 h2 he hf
    by_cases hchild : 2 * pos + 1 < l.length
    · -- the hole has at least a left child: one swap step
      have main : ∀ cp, pos < cp → cp < l.length → (cp - 1) / 2 = pos →
          (∀ c, c < l.length → 0 < c → (c - 1) / 2 = pos → c ≠ cp →
            keyLtB (key (l.getD c dE)) (key (l.getD cp dE)) = false) →
          ∃ C, siftupAux fuel
              ((l.set pos (l.getD cp dE)).set cp (l.getD pos dE)) cp l.length
              = (C, true) ∧ IsHeapL C ∧ C.Perm l := by
        intro cp hcp_gt hcp_lt hcp_par hminsib
        have hlen' : ((l.set pos (l.getD cp dE)).set cp
            (l.getD pos dE)).length = l.length := by
          rw [List.length_set, List.length_set]
        have hcp_ne : cp ≠ pos := Nat.ne_of_gt hcp_gt
        have hg_pos : ((l.set pos (l.getD cp dE)).set cp
            (l.getD pos dE)).getD pos dE = l.getD cp dE := by
          rw [getD_set_ne hcp_ne, getD_set_self hpos]
        have hg_cp : ((l.set pos (l.getD cp dE)).set cp
            (l.getD pos dE)).getD cp dE = l.getD pos dE := by
          have : cp < (l.set pos (l.getD cp dE)).length := by
            rw [List.length_set]; exact hcp_lt
          exact getD_set_self this
        have hg_ne : ∀ j, j ≠ pos → j ≠ cp →
            ((l.set pos (l.getD cp dE)).set cp (l.getD pos dE)).getD j dE
              = l.getD j dE := by
          intro j hj1 hj2
          rw [getD_set_ne (fun h => hj2 h.symm), getD_set_ne (fun h => hj1 h.symm)]
        have hih :=
          ih ((l.set pos (l.getD cp dE)).set cp (l.getD pos dE)) cp
            (by rw [hlen']; omega) (by rw [hlen']; exact hcp_lt)
            ?hj1 ?hj2 ?hj3 ?hj4
        case _ =>
          obtain ⟨C, hC, hCheap, hCperm⟩ := hih
          rw [hlen'] at hC
          refine ⟨C, hC, hCheap, ?_⟩
          exact hCperm.trans (swap_perm dE hcp_ne.symm hpos hcp_lt)
        case hj1 => -- invariant (i) at the new hole `cp`
          intro c hc hc0 hcne hcparne
          rw [hlen'] at hc
          by_cases hcpos : c = pos
          · -- pair (parent of pos, pos)
            have hp : 0 < pos := by omega
            have hparne2 : (pos - 1) / 2 ≠ pos := by omega
            have hparne3 : (pos - 1) / 2 ≠ cp := by omega
            rw [hcpos, hg_pos, hg_ne _ hparne2 hparne3]
            exact h2 cp hcp_lt (by omega) hcp_par hp
          · by_cases hparc : (c - 1) / 2 = pos
            · -- sibling of cp under pos
              rw [hg_ne c hcpos hcne, hparc, hg_pos]
              exact hminsib c hc hc0 hparc (fun h => hcne (by rw [h]))
            · rw [hg_ne c hcpos hcne, hg_ne _ hparc hcparne]
              exact h1 c hc hc0 hcpos hparc
        case hj2 => -- invariant (ii) at the new hole `cp`
          intro c hc hc0 hparc hcp0
          rw [hlen'] at hc
          have hc_gt : cp < c := by omega
          have hc_ne_pos : c ≠ pos := by omega
          rw [hcp_par, hg_ne c hc_ne_pos (by omega), hg_pos]
          have hx := h1 c hc hc0 hc_ne_pos (by omega)
          rw [hparc] at hx
          exact hx
        case hj3 => -- pairwise-distinct keys below the new hole
          intro i j hi hj hgi hgj hij
          rw [hlen'] at hi hj
          rw [hg_ne i (by omega) (by omega), hg_ne j (by omega) (by omega)]
          exact he i j hi hj (by omega) (by omega) hij
        case hj4 => -- the moving item's key clashes with nothing else
          intro i hi hine
          rw [hlen'] at hi
          rw [hg_cp]
          by_cases hipos : i = pos
          · rw [hipos, hg_pos]
            exact hf cp hcp_lt hcp_ne
          · rw [hg_ne i hipos hine]
            exact hf i hi hipos
      by_cases hrt : 2 * pos + 2 < l.length
      · -- two children: compare them
        have hkne2 : key (l.getD (2 * pos + 1) dE)
            ≠ key (l.getD (2 * pos + 2) dE) :=
          he (2 * pos + 1) (2 * pos + 2) hchild hrt (by omega) (by omega)
            (by omega)
        rcases Bool.eq_false_or_eq_true
            (keyLtB (key (l.getD (2 * pos + 1) dE))
              (key (l.getD (2 * pos + 2) dE))) with hb | hb
        · -- left child strictly smaller: the hole moves to `2*pos+1`
          have hunf : siftupAux (fuel + 1) l pos l.length =
              siftupAux fuel
                ((l.set pos (l.getD (2 * pos + 1) dE)).set (2 * pos + 1)
                  (l.getD pos dE)) (2 * pos + 1) l.length := by
            simp only [siftupAux, if_pos hchild, if_pos hrt]
            rw [entLT_eq_of_key_ne hkne2, hb]
            rfl
          have hm :=
            main (2 * pos + 1) (by omega) hchild (by omega) ?hma
          case _ =>
            obtain ⟨C, hC, hCheap, hCperm⟩ := hm
            exact ⟨C, hunf.trans hC, hCheap, hCperm⟩
          case hma =>
            intro c hc hc0 hparc hcne
            have hcr : c = 2 * pos + 2 := by omega
            rw [hcr]
            exact keyLtB_asymm hb
        · -- left child not strictly smaller: the hole moves to `2*pos+2`
          have hunf : siftupAux (fuel + 1) l pos l.length =
              siftupAux fuel
                ((l.set pos (l.getD (2 * pos + 2) dE)).set (2 * pos + 2)
                  (l.getD pos dE)) (2 * pos + 2) l.length := by
            simp only [siftupAux, if_pos hchild, if_pos hrt]
            rw [entLT_eq_of_key_ne hkne2, hb]
            rfl
          have hm :=
            main (2 * pos + 2) (by omega) hrt (by omega) ?hmb
          case _ =>
            obtain ⟨C, hC, hCheap, hCperm⟩ := hm
            exact ⟨C, hunf.trans hC, hCheap, hCperm⟩
          case hmb =>
            intro c hc hc0 hparc hcne
            have hcr : c = 2 * pos + 1 := by omega
            rw [hcr]
            exact hb
      · -- only a left child
        have hunf : siftupAux (fuel + 1) l pos l.length =
            siftupAux fuel
              ((l.set pos (l.getD (2 * pos + 1) dE)).set (2 * pos + 1)
                (l.getD pos dE)) (2 * pos + 1) l.length := by
          simp only [siftupAux, if_pos hchild, if_neg hrt]
          rfl
        have hm :=
          main (2 * pos + 1) (by omega) hchild (by omega) ?hmc
        case _ =>
          obtain ⟨C, hC, hCheap, hCperm⟩ := hm
          exact ⟨C, hunf.trans hC, hCheap, hCperm⟩
        case hmc =>
          intro c hc hc0 hparc hcne
          exact absurd hc (by omega)
    · -- the hole is a leaf: bubble the item up in place
      have hunf : siftupAux (fuel + 1) l pos l.length
          = siftdownAux pos l 0 pos := by
        simp only [siftupAux, if_neg hchild]
      have hsd :=
        siftdownAux_spec pos l pos (le_refl pos) hpos ?hk1 ?hk2 ?hk3 ?hk4
      case _ =>
        obtain ⟨C, hC, hCheap, hCperm⟩ := hsd
        exact ⟨C, hunf.trans hC, hCheap, hCperm⟩
      case hk1 =>
        exact h1
      case hk2 =>
        intro c hc hc0 hparc hp
        exact absurd hc (by omega)
      case hk3 =>
        intro c hc hc0 hparc
        exact absurd hc (by omega)
      case hk4 =>
        exact hf

/-- Indexed form of `ClavesDistintas`. -/
theorem distinct_keys_getD {l : List Entry} (hd : ClavesDistintas l) :
    ∀ i j, i < l.length → j < l.length → i ≠ j →
      key (l.getD i dE) ≠ key (l.getD j dE) := by
  intro i j hi hj hij
  rw [List.getD_eq_getElem _ _ hi, List.getD_eq_getElem _ _ hj]
  rcases Nat.lt_or_ge i j with h | h
  · exact (List.pairwise_iff_getElem.mp hd) i j hi hj h
  · have hji : j < i := by omega
    exact Ne.symm ((List.pairwise_iff_getElem.mp hd) j i hj hi hji)

theorem getD_dropLast {l : List Entry} {i : Nat} (h : i < l.length - 1) :
    l.dropLast.getD i dE = l.getD i dE := by
  have h1 : i < l.dropLast.length := by rw [List.length_dropLast]; exact h
  have h2 : i < l.length := by omega
  rw [List.getD_eq_getElem _ _ h1, List.getD_eq_getElem _ _ h2]
  exact List.getElem_dropLast l i h1

/-- Running `heappop` on a non-empty heap with pairwise-distinct keys: it raises no
`TypeError`, returns the root, and leaves a heap holding the remaining
entries. -/
theorem heappop_spec {l : List Entry} (hh : IsHeapL l) (hd : ClavesDistintas l)
    (hl : 0 < l.length) :
    ∃ l', heappop l = (l', .ok (l.getD 0 dE)) ∧ IsHeapL l' ∧
      ClavesDistintas l' ∧ l.Perm (l.getD 0 dE :: l') := by
  rcases Nat.lt_or_ge 1 l.length with h2 | h2
  · -- at least two entries: the sift runs
    have hne : l ≠ [] := List.ne_nil_of_length_pos hl
    have hrlen : l.dropLast.length = l.length - 1 := List.length_dropLast l
    have hrpos : 0 < l.dropLast.length := by omega
    have hr2len : (l.dropLast.set 0 (l.getD (l.length - 1) dE)).length
        = l.length - 1 := by rw [List.length_set]; exact hrlen
    have hg0 : (l.dropLast.set 0 (l.getD (l.length - 1) dE)).getD 0 dE
        = l.getD (l.length - 1) dE := getD_set_self hrpos
    have hgne : ∀ j, j ≠ 0 → j < l.length - 1 →
        (l.dropLast.set 0 (l.getD (l.length - 1) dE)).getD j dE = l.getD j dE := by
      intro j hj hjl
      rw [getD_set_ne (fun h => hj h.symm), getD_dropLast hjl]
    have hsift :=
      siftupAux_spec (l.dropLast.set 0 (l.getD (l.length - 1) dE)).length
        (l.dropLast.set 0 (l.getD (l.length - 1) dE)) 0
        (by omega) (by rw [hr2len]; omega)
        ?ha1 ?ha2 ?ha3 ?ha4
    case ha1 =>
      intro c hc hc0 hcne hcparne
      rw [hr2len] at hc
      rw [hgne c hcne hc, hgne _ hcparne (by omega)]
      exact hh c (by omega) hc0
    case ha2 =>
      intro c hc hc0 hparc hp0
      exact absurd hp0 (by omega)
    case ha3 =>
      intro i j hi hj hgi hgj hij
      rw [hr2len] at hi hj
      rw [hgne i (by omega) hi, hgne j (by omega) hj]
      exact distinct_keys_getD hd i j (by omega) (by omega) hij
    case ha4 =>
      intro i hi hine
      rw [hr2len] at hi
      rw [hgne i hine hi, hg0]
      exact distinct_keys_getD hd i (l.length - 1) (by omega) (by omega)
        (by omega)
    case _ =>
      obtain ⟨C, hC, hCheap, hCperm⟩ := hsift
      have hret : l.dropLast.getD 0 dE = l.getD 0 dE := getD_dropLast (by omega)
      have hunf : heappop l = (C, .ok (l.getD 0 dE)) := by
        unfold heappop
        rw [if_pos (by omega : l.dropLast.length ≠ 0)]
        simp only [hC, hret]
      -- multiset bookkeeping
      have hperm2 : C.Perm (l.getD (l.length - 1) dE :: l.dropLast.eraseIdx 0) :=
        hCperm.trans (perm_set_cons_eraseIdx hrpos _)
      have hsplit : l.Perm (l.getD (l.length - 1) dE :: l.dropLast) := by
        conv_lhs => rw [← List.dropLast_append_getLast hne]
        rw [List.getLast_eq_getElem, ← List.getD_eq_getElem l dE (by omega)]
        exact List.perm_append_singleton _ _
      have hsplit2 : l.dropLast.Perm (l.getD 0 dE :: l.dropLast.eraseIdx 0) := by
        have := perm_cons_getD_eraseIdx dE hrpos
        rw [hret] at this
        exact this
      have hfinal : l.Perm (l.getD 0 dE :: C) := by
        refine hsplit.trans ?_
        refine (List.Perm.cons _ hsplit2).trans ?_
        refine (List.Perm.swap _ _ _).trans ?_
        exact List.Perm.cons _ hperm2.symm
      refine ⟨C, hunf, hCheap, ?_, hfinal⟩
      have : List.Pairwise (fun a b => key a ≠ key b) (l.getD 0 dE :: C) :=
        hd.perm hfinal (fun h => Ne.symm h)
      exact (List.pairwise_cons.mp this).2
  · -- exactly one entry
    have h1 : l.length = 1 := by omega
    match l, h1 with
    | [x], _ =>
      exact ⟨[], rfl, fun i hi h0 => absurd hi (by simp), List.Pairwise.nil,
        List.Perm.refl _⟩

theorem IsHeapL_nil : IsHeapL [] := by
  intro i hi
  exact absurd hi (by simp)

/-- The C sift-down walk permutes the list at every step, success or error:
each iteration only swaps two entries in place. -/
theorem siftdownAux_perm :
    ∀ (fuel : Nat) (l : List Entry) (startpos pos : Nat), pos < l.length →
      ((siftdownAux fuel l startpos pos).1).Perm l := by
  intro fuel
  induction fuel with
  | zero =>
    intro l startpos pos hpos
    exact List.Perm.refl l
  | succ fuel ih =>
    intro l startpos pos hpos
    by_cases hp : startpos < pos
    · rcases hLT : entLT (l.getD pos dE) (l.getD ((pos - 1) / 2) dE) with e | b
      · have hunf : siftdownAux (fuel + 1) l startpos pos = (l, false) := by
          simp only [siftdownAux, if_pos hp]
          rw [hLT]
        rw [hunf]
      · cases b with
        | true =>
          have hparlt : (pos - 1) / 2 < pos := by omega
          have hparlen : (pos - 1) / 2 < l.length := lt_trans hparlt hpos
          have hunf : siftdownAux (fuel + 1) l startpos pos
              = siftdownAux fuel
                  ((l.set ((pos - 1) / 2) (l.getD pos dE)).set pos
                    (l.getD ((pos - 1) / 2) dE)) startpos ((pos - 1) / 2) := by
            simp only [siftdownAux, if_pos hp]
            rw [hLT]
          rw [hunf]
          refine (ih _ startpos _ ?_).trans ?_
          · rw [List.length_set, List.length_set]
            exact hparlen
          · exact swap_perm dE (Nat.ne_of_lt hparlt) hparlen hpos
        | false =>
          have hunf : siftdownAux (fuel + 1) l startpos pos = (l, true) := by
            simp only [siftdownAux, if_pos hp]
            rw [hLT]
          rw [hunf]
    · have hunf : siftdownAux (fuel + 1) l startpos pos = (l, true) := by
        simp only [siftdownAux, if_neg hp]
      rw [hunf]

/-- The C sift-up walk permutes the list at every step, success or error:
each iteration only swaps two entries in place, and the final bubble-up
does too. -/
theorem siftupAux_perm :
    ∀ (fuel : Nat) (l : List Entry) (pos endpos : Nat), pos < l.length →
      endpos ≤ l.length →
      ((siftupAux fuel l pos endpos).1).Perm l := by
  intro fuel
  induction fuel with
  | zero =>
    intro l pos endpos hpos hend
    exact siftdownAux_perm pos l 0 pos hpos
  | succ fuel ih =>
    intro l pos endpos hpos hend
    have hstep : ∀ cp, pos < cp → cp < l.length →
        ((siftupAux fuel ((l.set pos (l.getD cp dE)).set cp
          (l.getD pos dE)) cp endpos).1).Perm l := by
      intro cp hgt hcp
      refine (ih _ cp endpos ?_ ?_).trans ?_
      · rw [List.length_set, List.length_set]
        exact hcp
      · rw [List.length_set, List.length_set]
        exact hend
      · exact swap_perm dE (by omega) hpos hcp
    by_cases hchild : 2 * pos + 1 < endpos
    · by_cases hrt : 2 * pos + 2 < endpos
      · rcases hLT : entLT (l.getD (2 * pos + 1) dE) (l.getD (2 * pos + 2) dE)
          with e | b
        · have hunf : siftupAux (fuel + 1) l pos endpos = (l, false) := by
            simp only [siftupAux, if_pos hchild, if_pos hrt]
            rw [hLT]
          rw [hunf]
        · cases b with
          | true =>
            have hunf : siftupAux (fuel + 1) l pos endpos =
                siftupAux fuel
                  ((l.set pos (l.getD (2 * pos + 1) dE)).set (2 * pos + 1)
                    (l.getD pos dE)) (2 * pos + 1) endpos := by
              simp only [siftupAux, if_pos hchild, if_pos hrt]
              rw [hLT]
              rfl
            rw [hunf]
            exact hstep (2 * pos + 1) (by omega) (by omega)
          | false =>
            have hunf : siftupAux (fuel + 1) l pos endpos =
                siftupAux fuel
                  ((l.set pos (l.getD (2 * pos + 2) dE)).set (2 * pos + 2)
                    (l.getD pos dE)) (2 * pos + 2) endpos := by
              simp only [siftupAux, if_pos hchild, if_pos hrt]
              rw [hLT]
              rfl
            rw [hunf]
            exact hstep (2 * pos + 2) (by omega) (by omega)
      · have hunf : siftupAux (fuel + 1) l pos endpos =
            siftupAux fuel
              ((l.set pos (l.getD (2 * pos + 1) dE)).set (2 * pos + 1)
                (l.getD pos dE)) (2 * pos + 1) endpos := by
          simp only [siftupAux, if_pos hchild, if_neg hrt]
          rfl
        rw [hunf]
        exact hstep (2 * pos + 1) (by omega) (by omega)
    · have hunf : siftupAux (fuel + 1) l pos endpos
          = siftdownAux pos l 0 pos := by
        simp only [siftupAux, if_neg hchild]
      rw [hunf]
      exact siftdownAux_perm pos l 0 pos hpos

/-- Whatever `heappop` does on a non-empty list — return normally or raise a
`TypeError` mid-sift — the list it leaves behind together with one copy of
the original root is a permutation of the original list, because the C sift
only swaps entries in place. -/
theorem heappop_frame {l : List Entry} (hl : 0 < l.length) :
    l.Perm (l.getD 0 dE :: (heappop l).1) := by
  rcases Nat.lt_or_ge 1 l.length with h2 | h2
  · have hne : l ≠ [] := List.ne_nil_of_length_pos hl
    have hrlen : l.dropLast.length = l.length - 1 := List.length_dropLast l
    have hrpos : 0 < l.dropLast.length := by omega
    have hproj : (heappop l).1 =
        (siftupAux (l.dropLast.set 0 (l.getD (l.length - 1) dE)).length
          (l.dropLast.set 0 (l.getD (l.length - 1) dE)) 0
          (l.dropLast.set 0 (l.getD (l.length - 1) dE)).length).1 := by
      unfold heappop
      rw [if_pos (by omega : l.dropLast.length ≠ 0)]
      rcases hS : siftupAux (l.dropLast.set 0 (l.getD (l.length - 1) dE)).length
          (l.dropLast.set 0 (l.getD (l.length - 1) dE)) 0
          (l.dropLast.set 0 (l.getD (l.length - 1) dE)).length with ⟨h, b⟩
      cases b <;> simp only [hS]
    have hsperm : ((siftupAux
        (l.dropLast.set 0 (l.getD (l.length - 1) dE)).length
        (l.dropLast.set 0 (l.getD (l.length - 1) dE)) 0
        (l.dropLast.set 0 (l.getD (l.length - 1) dE)).length).1).Perm
        (l.dropLast.set 0 (l.getD (l.length - 1) dE)) :=
      siftupAux_perm _ _ 0 _ (by rw [List.length_set]; omega) (le_refl _)
    have hret : l.dropLast.getD 0 dE = l.getD 0 dE := getD_dropLast (by omega)
    have hsplit : l.Perm (l.getD (l.length - 1) dE :: l.dropLast) := by
      conv_lhs => rw [← List.dropLast_append_getLast hne]
      rw [List.getLast_eq_getElem, ← List.getD_eq_getElem l dE (by omega)]
      exact List.perm_append_singleton _ _
    have hsplit2 : l.dropLast.Perm (l.getD 0 dE :: l.dropLast.eraseIdx 0) := by
      have h := perm_cons_getD_eraseIdx dE hrpos
      rw [hret] at h
      exact h
    rw [hproj]
    refine hsplit.trans ?_
    refine (List.Perm.cons _ hsplit2).trans ?_
    refine (List.Perm.swap _ _ _).trans ?_
    exact List.Perm.cons _
      ((hsperm.trans (perm_set_cons_eraseIdx hrpos _)).symm)
  · have h1 : l.length = 1 := by omega
    match l, h1 with
    | [x], _ => exact List.Perm.refl _

/-- Unconditional frame property of the pruning scan: whether it returns or
raises a `TypeError`, the entries missing from the final list form a
sub-multiset of the original, every one of them bearing a completed name. -/
theorem obtenerAux_frame :
    ∀ (fuel : Nat) (l : List Entry) (comps : List String),
    ∃ removed, l.Perm (removed ++ (obtenerAux fuel l comps).1) ∧
      ∀ x ∈ removed, x.2.2.nombre ∈ comps := by
  intro fuel
  induction fuel with
  | zero =>
    intro l comps
    exact ⟨[], List.Perm.refl l, fun x hx => absurd hx (List.not_mem_nil x)⟩
  | succ fuel ih =>
    intro l comps
    by_cases hl : l.length ≠ 0
    · by_cases hc : (l.getD 0 dE).2.2.nombre ∈ comps
      · have hpop := heappop_frame (l := l) (by omega)
        rcases hP : heappop l with ⟨t', r⟩
        rw [hP] at hpop
        cases r with
        | ok v =>
          obtain ⟨removed, hperm, hrem⟩ := ih t' comps
          refine ⟨l.getD 0 dE :: removed, ?_, ?_⟩
          · have hunf : obtenerAux (fuel + 1) l comps
                = obtenerAux fuel t' comps := by
              simp only [obtenerAux, if_pos hl, if_pos hc, hP]
            rw [hunf]
            exact hpop.trans (List.Perm.cons _ hperm)
          · intro x hx
            rcases List.mem_cons.mp hx with h | h
            · rw [h]; exact hc
            · exact hrem x h
        | error err =>
          refine ⟨[l.getD 0 dE], ?_, ?_⟩
          · have hunf : obtenerAux (fuel + 1) l comps = (t', .error err) := by
              simp only [obtenerAux, if_pos hl, if_pos hc, hP]
            rw [hunf]
            exact hpop
          · intro x hx
            rcases List.mem_cons.mp hx with h | h
            · rw [h]; exact hc
            · exact absurd h (List.not_mem_nil x)
      · refine ⟨[], ?_, fun x hx => absurd hx (List.not_mem_nil x)⟩
        have hunf : obtenerAux (fuel + 1) l comps
            = (l, .ok (some (l.getD 0 dE).2.2)) := by
          simp only [obtenerAux, if_pos hl, if_neg hc]
        rw [hunf]
        exact List.Perm.refl l
    · refine ⟨[], ?_, fun x hx => absurd hx (List.not_mem_nil x)⟩
      have hunf : obtenerAux (fuel + 1) l comps = (l, .ok none) := by
        simp only [obtenerAux, if_neg hl]
      rw [hunf]
      exact List.Perm.refl l


/-- The scan of `obtener_siguiente_tarea` on a heap with pairwise-distinct
keys: it raises no `TypeError`; the entries it removes all have completed
names; what remains is still a heap with distinct keys; it answers `none`
exactly by emptying the heap; and a `some` answer is the task of the root of
the remaining heap, not completed. -/
theorem obtenerAux_spec :
    ∀ (fuel : Nat) (l : List Entry) (comps : List String),
    IsHeapL l → ClavesDistintas l → l.length ≤ fuel →
    ∃ l' res removed,
      obtenerAux fuel l comps = (l', .ok res) ∧
      l.Perm (removed ++ l') ∧
      (∀ x ∈ removed, x.2.2.nombre ∈ comps) ∧
      IsHeapL l' ∧ ClavesDistintas l' ∧
      (res = none → l' = []) ∧
      (∀ t, res = some t → 0 < l'.length ∧ (l'.getD 0 dE).2.2 = t ∧
        t.nombre ∉ comps) := by
  intro fuel
  induction fuel with
  | zero =>
    intro l comps hh hd hfuel
    have h0 : l = [] := List.length_eq_zero.mp (by omega)
    subst h0
    exact ⟨[], none, [], rfl, by simp, by simp, IsHeapL_nil,
      List.Pairwise.nil, fun _ => rfl, fun t ht => by cases ht⟩
  | succ fuel ih =>
    intro l comps hh hd hfuel
    by_cases hlen : l.length = 0
    · have h0 : l = [] := List.length_eq_zero.mp hlen
      subst h0
      exact ⟨[], none, [], rfl, by simp, by simp, IsHeapL_nil,
        List.Pairwise.nil, fun _ => rfl, fun t ht => by cases ht⟩
    · by_cases hroot : (l.getD 0 dE).2.2.nombre ∈ comps
      · -- completed root: pop and continue
        obtain ⟨l₂, hpop, hheap₂, hdist₂, hperm₂⟩ :=
          heappop_spec hh hd (by omega)
        have hlen₂ : l₂.length = l.length - 1 := by
          have := hperm₂.length_eq
          simp at this
          omega
        have hunf : obtenerAux (fuel + 1) l comps = obtenerAux fuel l₂ comps := by
          simp only [obtenerAux, if_pos hlen, if_pos hroot, hpop]
        obtain ⟨l', res, removed, heq, hperm', hremoved, hheap', hdist',
          hnone, hsome⟩ := ih l₂ comps hheap₂ hdist₂ (by omega)
        refine ⟨l', res, l.getD 0 dE :: removed, hunf.trans heq, ?_, ?_,
          hheap', hdist', hnone, hsome⟩
        · exact hperm₂.trans (List.Perm.cons _ hperm')
        · intro x hx
          rcases List.mem_cons.mp hx with hx | hx
          · rw [hx]; exact hroot
          · exact hremoved x hx
      · -- not-completed root: return it, removing nothing
        have hunf : obtenerAux (fuel + 1) l comps
            = (l, .ok (some (l.getD 0 dE).2.2)) := by
          simp only [obtenerAux, if_pos hlen, if_neg hroot]
        refine ⟨l, some (l.getD 0 dE).2.2, [], hunf, by simp, by simp, hh, hd,
          ?_, ?_⟩
        · intro h
          exact absurd h (by simp)
        · intro t ht
          have htt : (l.getD 0 dE).2.2 = t := by
            injection ht
          exact ⟨by omega, htt, htt ▸ hroot⟩

/-! ## Counting, membership and sorting helpers -/

theorem cuenta_append {α : Type} [DecidableEq α] (x : α) :
    ∀ l₁ l₂ : List α, cuenta x (l₁ ++ l₂) = cuenta x l₁ + cuenta x l₂ := by
  intro l₁ l₂
  induction l₁ with
  | nil => simp [cuenta]
  | cons y ys ih => simp [cuenta, ih]; omega

theorem cuenta_perm {α : Type} [DecidableEq α] {l₁ l₂ : List α}
    (h : l₁.Perm l₂) (x : α) : cuenta x l₁ = cuenta x l₂ := by
  induction h with
  | nil => rfl
  | cons y _ ih => simp [cuenta, ih]
  | swap y z l => simp [cuenta]; omega
  | trans _ _ ih1 ih2 => exact ih1.trans ih2

theorem cuenta_eq_zero_of_not_mem {α : Type} [DecidableEq α] {x : α}
    {l : List α} (h : x ∉ l) : cuenta x l = 0 := by
  induction l with
  | nil => rfl
  | cons y ys ih =>
    have hy : y ≠ x := fun hxy => h (hxy ▸ List.mem_cons_self y ys)
    have hx : x ∉ ys := fun hx => h (List.mem_cons_of_mem y hx)
    simp [cuenta, hy, ih hx]

theorem cuenta_eq_one_of_nodup_mem {α : Type} [DecidableEq α] {x : α}
    {l : List α} (hnd : l.Nodup) (h : x ∈ l) : cuenta x l = 1 := by
  induction l with
  | nil => cases h
  | cons y ys ih =>
    rcases List.mem_cons.mp h with h | h
    · subst h
      have : x ∉ ys := (List.nodup_cons.mp hnd).1
      simp [cuenta, cuenta_eq_zero_of_not_mem this]
    · have hy : y ≠ x := by
        intro hxy
        exact (List.nodup_cons.mp hnd).1 (hxy ▸ h)
      simp [cuenta, hy, ih (List.nodup_cons.mp hnd).2 h]

theorem getD_zero_mem {l : List Entry} (h : 0 < l.length) : l.getD 0 dE ∈ l := by
  rw [List.getD_eq_getElem _ _ h]
  exact List.getElem_mem h

/-! ## Facts about the date decoration used by `listar_tareas` -/

theorem decorar_map_snd : ∀ {ts : List Tarea} {ds : List (Fecha × Tarea)},
    decorarFechas ts = .ok ds → ds.map (fun x => x.2) = ts := by
  intro ts
  induction ts with
  | nil => intro ds h; cases h; rfl
  | cons t ts ih =>
    intro ds h
    unfold decorarFechas at h
    cases hp : strptimeYmd t.fecha_vencimiento with
    | none => rw [hp] at h; cases h
    | some f =>
      rw [hp] at h
      cases hd : decorarFechas ts with
      | error err => rw [hd] at h; cases h
      | ok ds2 =>
        rw [hd] at h
        cases h
        simp [ih hd]

theorem decorar_parses : ∀ {ts : List Tarea} {ds : List (Fecha × Tarea)},
    decorarFechas ts = .ok ds →
      ∀ p ∈ ds, strptimeYmd p.2.fecha_vencimiento = some p.1 := by
  intro ts
  induction ts with
  | nil => intro ds h p hp; cases h; cases hp
  | cons t ts ih =>
    intro ds h p hp
    unfold decorarFechas at h
    cases hpt : strptimeYmd t.fecha_vencimiento with
    | none => rw [hpt] at h; cases h
    | some f =>
      rw [hpt] at h
      cases hd : decorarFechas ts with
      | error err => rw [hd] at h; cases h
      | ok ds2 =>
        rw [hd] at h
        cases h
        rcases List.mem_cons.mp hp with hp | hp
        · subst hp; exact hpt
        · exact ih hd p hp

theorem decorar_total : ∀ {ts : List Tarea},
    (∀ t ∈ ts, (strptimeYmd t.fecha_vencimiento).isSome = true) →
      ∃ ds, decorarFechas ts = .ok ds := by
  intro ts
  induction ts with
  | nil => intro _; exact ⟨[], rfl⟩
  | cons t ts ih =>
    intro h
    have ht := h t (List.mem_cons_self t ts)
    cases hpt : strptimeYmd t.fecha_vencimiento with
    | none => rw [hpt] at ht; cases ht
    | some f =>
      obtain ⟨ds, hds⟩ := ih (fun u hu => h u (List.mem_cons_of_mem t hu))
      exact ⟨(f, t) :: ds, by unfold decorarFechas; rw [hpt, hds]⟩

theorem decorar_fails : ∀ {ts : List Tarea} {t : Tarea}, t ∈ ts →
    strptimeYmd t.fecha_vencimiento = none →
      decorarFechas ts = .error .strptimeError := by
  intro ts
  induction ts with
  | nil => intro t ht; cases ht
  | cons u ts ih =>
    intro t ht hnone
    rcases List.mem_cons.mp ht with h | h
    · subst h
      unfold decorarFechas
      rw [hnone]
    · unfold decorarFechas
      cases hpu : strptimeYmd u.fecha_vencimiento with
      | none => rfl
      | some f => rw [ih h hnone]

/-! ## Facts about the pending-view filter -/

theorem mem_pendientes {e : Estado} {t : Tarea} :
    t ∈ tareasPendientes e ↔
      (∃ x ∈ e.tareas, x.2.2 = t) ∧ t.nombre ∉ e.tareas_completadas := by
  unfold tareasPendientes
  rw [List.mem_filter, List.mem_map]
  simp only [Bool.not_eq_true', decide_eq_false_iff_not]

/-- Whatever `listar_tareas` returns consists of pending tasks. -/
theorem listar_subset_pendientes {e : Estado} {c : String} {l : List Tarea}
    (h : listarTareas e c = .ok l) : ∀ t ∈ l, t ∈ tareasPendientes e := by
  intro t ht
  unfold listarTareas at h
  by_cases hc : c = "fecha"
  · rw [if_pos hc] at h
    cases hd : decorarFechas (tareasPendientes e) with
    | error err => rw [hd] at h; cases h
    | ok ds =>
      rw [hd] at h
      cases h
      obtain ⟨p, hp, hpt⟩ := List.mem_map.mp ht
      have hpds : p ∈ ds := (List.mem_insertionSort _).mp hp
      have := decorar_map_snd hd
      rw [← this]
      exact hpt ▸ List.mem_map_of_mem (fun x => x.2) hpds
  · rw [if_neg hc] at h
    by_cases hc2 : c = "prioridad"
    · rw [if_pos hc2] at h
      cases h
      exact (List.mem_insertionSort _).mp ht
    · rw [if_neg hc2] at h
      cases h

/-! ## The scan never answers a completed task (no heap hypotheses needed) -/

theorem obtenerAux_some_not_completed :
    ∀ (fuel : Nat) (l : List Entry) (comps : List String)
      (l' : List Entry) (t : Tarea),
      obtenerAux fuel l comps = (l', .ok (some t)) → t.nombre ∉ comps := by
  intro fuel
  induction fuel with
  | zero =>
    intro l comps l' t h
    unfold obtenerAux at h
    cases h
  | succ fuel ih =>
    intro l comps l' t h
    unfold obtenerAux at h
    by_cases hlen : l.length ≠ 0
    · rw [if_pos hlen] at h
      by_cases hroot : (l.getD 0 dE).2.2.nombre ∈ comps
      · rw [if_pos hroot] at h
        cases hpop : heappop l with
        | mk l₂ r =>
          rw [hpop] at h
          cases r with
          | ok x => exact ih l₂ comps l' t h
          | error err => cases h
      · rw [if_neg hroot] at h
        have ht : (l.getD 0 dE).2.2 = t := by
          injection h with h1 h2
          injection h2 with h3
          injection h3
        exact ht ▸ hroot
    · rw [if_neg hlen] at h
      cases h

/-! ## The linear scan of `es_ejecutable` -/

theorem esEjecutableLista_none {n : String} {comps : List String} :
    ∀ {l : List Entry}, (∀ x ∈ l, x.2.2.nombre ≠ n) →
      esEjecutableLista n comps l = false := by
  intro l
  induction l with
  | nil => intro _; rfl
  | cons x xs ih =>
    intro h
    unfold esEjecutableLista
    rw [if_neg (h x (List.mem_cons_self x xs))]
    exact ih (fun y hy => h y (List.mem_cons_of_mem x hy))

theorem esEjecutableLista_first {n : String} {comps : List String} :
    ∀ (l₁ : List Entry) (x : Entry) (l₂ : List Entry),
      (∀ y ∈ l₁, y.2.2.nombre ≠ n) → x.2.2.nombre = n →
      esEjecutableLista n comps (l₁ ++ x :: l₂)
        = x.2.2.dependencias.all (fun d => decide (d ∈ comps)) := by
  intro l₁
  induction l₁ with
  | nil =>
    intro x l₂ _ hx
    show esEjecutableLista n comps (x :: l₂) = _
    unfold esEjecutableLista
    rw [if_pos hx]
  | cons y ys ih =>
    intro x l₂ hclean hx
    have hy : y.2.2.nombre ≠ n := hclean y (List.mem_cons_self y ys)
    show esEjecutableLista n comps (y :: (ys ++ x :: l₂)) = _
    unfold esEjecutableLista
    rw [if_neg hy]
    exact ih x l₂ (fun z hz => hclean z (List.mem_cons_of_mem y hz)) hx

/-! ## Claim theorems -/

/-- C4: `es_ejecutable` returns `false` when no heap entry (completed or
not) carries the given name; otherwise, for the first entry with that name, it
returns `true` exactly when every listed dependency name is in
`tareas_completadas`. -/
theorem es_ejecutable_spec (e : Estado) (n : String) :
    ((∀ x ∈ e.tareas, x.2.2.nombre ≠ n) → esEjecutable e n = false) ∧
    (∀ l₁ x l₂, e.tareas = l₁ ++ x :: l₂ →
      (∀ y ∈ l₁, y.2.2.nombre ≠ n) → x.2.2.nombre = n →
      (esEjecutable e n = true ↔
        ∀ d ∈ x.2.2.dependencias, d ∈ e.tareas_completadas)) := by
  constructor
  · intro h
    exact esEjecutableLista_none h
  · intro l₁ x l₂ hsplit hclean hx
    unfold esEjecutable
    rw [hsplit, esEjecutableLista_first l₁ x l₂ hclean hx, List.all_eq_true]
    constructor
    · intro h d hd
      exact decide_eq_true_eq.mp (h d hd)
    · intro h d hd
      exact decide_eq_true_eq.mpr (h d hd)

theorem es_ejecutable_spec_witness :
    esEjecutable exC4 "Z" = false ∧ esEjecutable exC4 "A" = true :=
  ⟨(es_ejecutable_spec exC4 "Z").1 (by decide),
    ((es_ejecutable_spec exC4 "A").2 []
      ((-5 : Int), fechaEj, ⟨"A", 5, strftimeYmd fechaEj, ["B", "C"]⟩) []
      rfl (by decide) (by decide)).mpr (by decide)⟩

/-- C7: `agregar_tarea` with a non-`int` or negative priority raises the
priority `ValueError`, and with a valid priority but an unparseable date the
date `ValueError`; in all three cases the returned state is the input state —
`pending`, `completed` and the file untouched, no save performed. -/
theorem add_task_invalid (e : Estado) (n : String) (fecha : String)
    (deps : Option (List String)) :
    (agregarTarea e n .otro fecha deps = (e, .error .invalidPrioridad)) ∧
    (∀ p : Int, p < 0 →
      agregarTarea e n (.entero p) fecha deps = (e, .error .invalidPrioridad)) ∧
    (∀ p : Int, 0 ≤ p → strptimeYmd fecha = none →
      agregarTarea e n (.entero p) fecha deps = (e, .error .invalidFecha)) := by
  refine ⟨rfl, ?_, ?_⟩
  · intro p hp
    simp only [agregarTarea]
    rw [if_pos hp]
  · intro p hp hnone
    simp only [agregarTarea]
    rw [if_neg (by omega), hnone]

theorem add_task_invalid_witness :
    agregarTarea estadoVacio "T" (.entero (-1)) "2025-01-10" none
        = (estadoVacio, .error .invalidPrioridad) ∧
    agregarTarea estadoVacio "T" (.entero 5) "2024-13-40" none
        = (estadoVacio, .error .invalidFecha) :=
  ⟨(add_task_invalid estadoVacio "T" "2025-01-10" none).2.1 (-1) (by decide),
    (add_task_invalid estadoVacio "T" "2024-13-40" none).2.2 5 (by decide)
      (by decide)⟩

/-- C6: completing the same name twice leaves the state of the first
completion untouched: the second call reports `already_completed` (the printed
notice, returned here as `true`), changes neither `pending` nor `completed`
nor the file, and the name ends up in `completed` exactly once. -/
theorem complete_twice (e : Estado) (n : String)
    (hnd : e.tareas_completadas.Nodup) :
    (completarTarea (completarTarea e n).1 n).1 = (completarTarea e n).1 ∧
    (completarTarea (completarTarea e n).1 n).2 = true ∧
    cuenta n (completarTarea (completarTarea e n).1 n).1.tareas_completadas
      = 1 := by
  by_cases hm : n ∈ e.tareas_completadas
  · have h1 : completarTarea e n = (e, true) := by
      unfold completarTarea
      rw [if_pos hm]
    rw [h1]
    have h2 : completarTarea e n = (e, true) := h1
    unfold completarTarea
    rw [if_pos hm]
    exact ⟨rfl, rfl, cuenta_eq_one_of_nodup_mem hnd hm⟩
  · have h1 : completarTarea e n =
        (guardarDatos { e with tareas_completadas := n :: e.tareas_completadas },
          false) := by
      unfold completarTarea
      rw [if_neg hm]
    rw [h1]
    have hmem : n ∈ (guardarDatos
        { e with tareas_completadas := n :: e.tareas_completadas
        }).tareas_completadas := List.mem_cons_self n e.tareas_completadas
    unfold completarTarea
    rw [if_pos hmem]
    refine ⟨rfl, rfl, ?_⟩
    show cuenta n (n :: e.tareas_completadas) = 1
    simp [cuenta, cuenta_eq_zero_of_not_mem hm]

theorem complete_twice_witness :
    exC3.tareas_completadas.Nodup ∧
    ((completarTarea (completarTarea exC3 "X").1 "X").1
        = (completarTarea exC3 "X").1 ∧
      (completarTarea (completarTarea exC3 "X").1 "X").2 = true ∧
      cuenta "X"
        (completarTarea (completarTarea exC3 "X").1 "X").1.tareas_completadas
        = 1) :=
  ⟨by decide, complete_twice exC3 "X" (by decide)⟩

/-- C3, lazy deletion: `completar_tarea` never touches the heap — it only
records the name in `tareas_completadas` — yet afterwards `listar_tareas`
(under any sort key) never lists a task with that name and
`obtener_siguiente_tarea` never returns one, even though the entry stays in
the heap until a later scan prunes it. -/
theorem complete_task_lazy (e : Estado) (n : String) :
    ((completarTarea e n).1.tareas = e.tareas) ∧
    (n ∈ (completarTarea e n).1.tareas_completadas) ∧
    (∀ c l, listarTareas (completarTarea e n).1 c = .ok l →
      ∀ t ∈ l, t.nombre ≠ n) ∧
    (∀ t, (obtenerSiguienteTarea (completarTarea e n).1).2 = .ok (some t) →
      t.nombre ≠ n) := by
  have htar : (completarTarea e n).1.tareas = e.tareas := by
    unfold completarTarea guardarDatos
    split <;> rfl
  have hmem : n ∈ (completarTarea e n).1.tareas_completadas := by
    unfold completarTarea guardarDatos
    split
    · assumption
    · exact List.mem_cons_self n e.tareas_completadas
  refine ⟨htar, hmem, ?_, ?_⟩
  · intro c l h t ht
    have hp := listar_subset_pendientes h t ht
    have hnc := (mem_pendientes.mp hp).2
    intro hn
    exact hnc (hn ▸ hmem)
  · intro t h
    have h2 : obtenerAux (completarTarea e n).1.tareas.length
        (completarTarea e n).1.tareas (completarTarea e n).1.tareas_completadas
        = ((obtenerAux (completarTarea e n).1.tareas.length
            (completarTarea e n).1.tareas
            (completarTarea e n).1.tareas_completadas).1,
          .ok (some t)) := by
      rw [← h]
      rfl
    have hnc := obtenerAux_some_not_completed _ _ _ _ t h2
    intro hn
    exact hnc (hn ▸ hmem)

theorem complete_task_lazy_witness :
    ((completarTarea exC3 "X").1.tareas = exC3.tareas) ∧
    ("X" ∈ (completarTarea exC3 "X").1.tareas_completadas) ∧
    ((⟨"Y", 3, "2025-01-10", []⟩ : Tarea).nombre ≠ "X") ∧
    ((⟨"Y", 3, "2025-01-10", []⟩ : Tarea).nombre ≠ "X") :=
  ⟨(complete_task_lazy exC3 "X").1, (complete_task_lazy exC3 "X").2.1,
    (complete_task_lazy exC3 "X").2.2.1 "prioridad"
      [⟨"Y", 3, "2025-01-10", []⟩] rfl ⟨"Y", 3, "2025-01-10", []⟩ (by decide),
    (complete_task_lazy exC3 "X").2.2.2 ⟨"Y", 3, "2025-01-10", []⟩ rfl⟩

/-- Element-wise reload of what `guardar_datos` wrote: every serialized
record parses and reconstructs the original task dictionary and stored key
priority. -/
theorem cargar_guardar_aux : ∀ (l : List Entry),
    (∀ x ∈ l, x.1 = -x.2.2.prioridad) →
    (∀ x ∈ l, (strptimeYmd x.2.2.fecha_vencimiento).isSome = true) →
    ∃ ds, decorarFechas (l.map (fun x =>
        ({ nombre := x.2.2.nombre, prioridad := -x.1,
           fecha_vencimiento := x.2.2.fecha_vencimiento,
           dependencias := x.2.2.dependencias } : Tarea))) = .ok ds ∧
      ds.map (fun x => x.2) = l.map (fun x => x.2.2) ∧
      ds.map (fun x => -x.2.prioridad) = l.map (fun x => x.1) := by
  intro l
  induction l with
  | nil => intro _ _; exact ⟨[], rfl, rfl, rfl⟩
  | cons x xs ih =>
    intro hco hfp
    obtain ⟨ds, hds, hsnd, hpri⟩ :=
      ih (fun y hy => hco y (List.mem_cons_of_mem x hy))
        (fun y hy => hfp y (List.mem_cons_of_mem x hy))
    have hx := hfp x (List.mem_cons_self x xs)
    cases hp : strptimeYmd x.2.2.fecha_vencimiento with
    | none => rw [hp] at hx; cases hx
    | some f =>
      have hxco := hco x (List.mem_cons_self x xs)
      have hdict : Tarea.mk x.2.2.nombre (-x.1) x.2.2.fecha_vencimiento
          x.2.2.dependencias = x.2.2 := by
        rw [hxco]
        obtain ⟨n2, p2, f2, d2⟩ := x.2.2
        simp
      refine ⟨(f, x.2.2) :: ds, ?_, ?_, ?_⟩
      · show decorarFechas (_ :: _) = _
        unfold decorarFechas
        simp only [hdict, hp, hds]
      · simp [hsnd]
      · simp [hpri, hxco]

/-- C5, round-trip: loading the file that `guardar_datos` wrote (as on a
process restart) reproduces task dictionaries — names, priorities, due-date
strings, dependency lists — in the same order, reconstructs every stored heap
key priority, and returns the completed set unchanged.  The two hypotheses
are invariants of every store the program builds: `agregar_tarea` and
`cargar_datos` only create entries keyed by their own task's negated priority
and with a parseable date string. -/
theorem persist_load_roundtrip (e : Estado) (hco : Coherente e.tareas)
    (hfp : FechasParsean e.tareas) :
    ∃ t', cargarDatos (some (.valido (datosDe e.tareas e.tareas_completadas)))
        = .ok (t', e.tareas_completadas) ∧
      t'.map (fun x => x.2.2) = e.tareas.map (fun x => x.2.2) ∧
      t'.map (fun x => x.1) = e.tareas.map (fun x => x.1) := by
  obtain ⟨ds, hds, hsnd, hpri⟩ := cargar_guardar_aux e.tareas hco hfp
  refine ⟨ds.map (fun x => (-x.2.prioridad, x.1, x.2)), ?_, ?_, ?_⟩
  · simp only [cargarDatos, datosDe, hds]
  · rw [List.map_map]
    exact hsnd
  · rw [List.map_map]
    exact hpri

theorem persist_load_roundtrip_witness :
    (Coherente exC3.tareas ∧ FechasParsean exC3.tareas) ∧
    ∃ t', cargarDatos (some (.valido
          (datosDe exC3.tareas exC3.tareas_completadas)))
        = .ok (t', exC3.tareas_completadas) ∧
      t'.map (fun x => x.2.2) = exC3.tareas.map (fun x => x.2.2) ∧
      t'.map (fun x => x.1) = exC3.tareas.map (fun x => x.1) :=
  ⟨by decide, persist_load_roundtrip exC3 (by decide) (by decide)⟩

/-- C8: `listar_tareas` never lists a completed name; with key
`"prioridad"` it returns the pending tasks sorted by descending priority, with
key `"fecha"` sorted by ascending parsed due date, and with any other key it
raises the sort-key `ValueError`.  It is a pure read: the function neither
receives nor returns a state, mirroring the method's absence of writes. -/
theorem list_tasks_spec (e : Estado) :
    (∃ l, listarTareas e "prioridad" = .ok l ∧ l.Perm (tareasPendientes e) ∧
      List.Pairwise ordPrioridad l ∧
      ∀ t ∈ l, t.nombre ∉ e.tareas_completadas) ∧
    ((∀ t ∈ tareasPendientes e,
        (strptimeYmd t.fecha_vencimiento).isSome = true) →
      ∃ l, listarTareas e "fecha" = .ok l ∧ l.Perm (tareasPendientes e) ∧
        List.Pairwise (fun a b =>
          fechaStrLeB a.fecha_vencimiento b.fecha_vencimiento = true) l ∧
        ∀ t ∈ l, t.nombre ∉ e.tareas_completadas) ∧
    (∀ c, c ≠ "fecha" → c ≠ "prioridad" →
      listarTareas e c = .error .invalidCriterio) := by
  refine ⟨?_, ?_, ?_⟩
  · have hunf : listarTareas e "prioridad"
        = .ok ((tareasPendientes e).insertionSort ordPrioridad) := by
      unfold listarTareas
      rw [if_neg (by decide : ¬("prioridad" = "fecha")), if_pos rfl]
    refine ⟨_, hunf, List.perm_insertionSort ordPrioridad _,
      List.sorted_insertionSort ordPrioridad _, ?_⟩
    intro t ht
    exact (mem_pendientes.mp (listar_subset_pendientes hunf t ht)).2
  · intro hp
    obtain ⟨ds, hds⟩ := decorar_total hp
    have hunf : listarTareas e "fecha"
        = .ok ((ds.insertionSort ordFecha).map (fun x => x.2)) := by
      unfold listarTareas
      rw [if_pos rfl]
      simp only [hds]
    have hparse : ∀ p ∈ ds.insertionSort ordFecha,
        strptimeYmd p.2.fecha_vencimiento = some p.1 :=
      fun p hp2 => decorar_parses hds p ((List.mem_insertionSort _).mp hp2)
    refine ⟨_, hunf, ?_, ?_, ?_⟩
    · have h1 := (List.perm_insertionSort ordFecha ds).map (fun x => x.2)
      rw [decorar_map_snd hds] at h1
      exact h1
    · rw [List.pairwise_map]
      refine (List.sorted_insertionSort ordFecha ds).imp_of_mem ?_
      intro a b ha hb hab
      unfold fechaStrLeB
      rw [hparse a ha, hparse b hb]
      exact hab
    · intro t ht
      exact (mem_pendientes.mp (listar_subset_pendientes hunf t ht)).2
  · intro c hc1 hc2
    unfold listarTareas
    rw [if_neg hc1, if_neg hc2]

theorem list_tasks_spec_witness :
    (∃ l, listarTareas exC8 "prioridad" = .ok l ∧
      l.Perm (tareasPendientes exC8) ∧ List.Pairwise ordPrioridad l ∧
      ∀ t ∈ l, t.nombre ∉ exC8.tareas_completadas) ∧
    (∃ l, listarTareas exC8 "fecha" = .ok l ∧
      l.Perm (tareasPendientes exC8) ∧
      List.Pairwise (fun a b =>
        fechaStrLeB a.fecha_vencimiento b.fecha_vencimiento = true) l ∧
      ∀ t ∈ l, t.nombre ∉ exC8.tareas_completadas) ∧
    listarTareas exC8 "x" = .error .invalidCriterio :=
  ⟨(list_tasks_spec exC8).1,
    (list_tasks_spec exC8).2.1 (by decide),
    (list_tasks_spec exC8).2.2 "x" (by decide) (by decide)⟩

/-- C9, store construction: a missing file yields the empty store; a file
`json.load` rejects makes construction fail with its error rather than being
swallowed; a well-formed file is reconstructed entry by entry (task
dictionaries verbatim, heap keys re-negated from the stored priorities, dates
re-parsed); and a stored date that does not parse also aborts construction. -/
theorem load_on_construction :
    (inicializar none = .ok ⟨[], [], none⟩) ∧
    (inicializar (some .corrupto) = .error .jsonDecodeError) ∧
    (∀ datos : Datos, (∀ t ∈ datos.tareas,
        (strptimeYmd t.fecha_vencimiento).isSome = true) →
      ∃ est, inicializar (some (.valido datos)) = .ok est ∧
        est.tareas.map (fun x => x.2.2) = datos.tareas ∧
        est.tareas.map (fun x => x.1)
          = datos.tareas.map (fun t => -t.prioridad) ∧
        (∀ x ∈ est.tareas, strptimeYmd x.2.2.fecha_vencimiento = some x.2.1) ∧
        est.tareas_completadas = datos.completadas ∧
        est.disco = some (.valido datos)) ∧
    (∀ (datos : Datos) (t : Tarea), t ∈ datos.tareas →
      strptimeYmd t.fecha_vencimiento = none →
      inicializar (some (.valido datos)) = .error .strptimeError) := by
  refine ⟨rfl, rfl, ?_, ?_⟩
  · intro datos hp
    obtain ⟨ds, hds⟩ := decorar_total hp
    refine ⟨⟨ds.map (fun x => (-x.2.prioridad, x.1, x.2)), datos.completadas,
      some (.valido datos)⟩, ?_, ?_, ?_, ?_, rfl, rfl⟩
    · simp only [inicializar, cargarDatos, hds]
    · rw [List.map_map]
      exact decorar_map_snd hds
    · rw [List.map_map]
      conv_rhs => rw [← decorar_map_snd hds]
      rw [List.map_map]
      rfl
    · intro x hx
      obtain ⟨p, hpds, hpx⟩ := List.mem_map.mp hx
      have := decorar_parses hds p hpds
      rw [← hpx]
      exact this
  · intro datos t ht hnone
    have hfail := decorar_fails ht hnone
    simp only [inicializar, cargarDatos, hfail]

theorem load_on_construction_witness :
    (∃ est, inicializar (some (.valido datosEj)) = .ok est ∧
      est.tareas.map (fun x => x.2.2) = datosEj.tareas ∧
      est.tareas.map (fun x => x.1)
        = datosEj.tareas.map (fun t => -t.prioridad) ∧
      (∀ x ∈ est.tareas, strptimeYmd x.2.2.fecha_vencimiento = some x.2.1) ∧
      est.tareas_completadas = datosEj.completadas ∧
      est.disco = some (.valido datosEj)) ∧
    inicializar (some (.valido datosMal)) = .error .strptimeError :=
  ⟨load_on_construction.2.2.1 datosEj (by decide),
    load_on_construction.2.2.2 datosMal ⟨"T", 4, "no-date", []⟩ (by decide)
      (by decide)⟩

/-- C2 (records the defect): adding `("A", 5, "2025-01-10")` to a fresh
store succeeds, but then adding `("B", 5, "2025-01-10")` — a perfectly valid
input whose priority and due date tie with the existing entry — makes
`heappush` compare the two task dictionaries and raise `TypeError` instead of
inserting; no save happens (the file keeps the first task only), and Python's
in-place `heap.append` leaves the new entry dangling in the list. -/
theorem add_task_duplicate_key_typeerror :
    pasoC2a.2 = .ok () ∧
    pasoC2b.2 = .error .typeError ∧
    pasoC2b.1.disco = pasoC2a.1.disco ∧
    pasoC2b.1.tareas = pasoC2a.1.tareas
      ++ [(-5, ⟨2025, 1, 10⟩, ⟨"B", 5, "2025-01-10", []⟩)] :=
  ⟨rfl, rfl, rfl, rfl⟩

/-- C1 (amended: pending entries carry pairwise-distinct
`(-prioridad, fecha)` keys, and each key stores its own task's negated
priority — both invariants of the heap as the program builds it, though
violated by valid inputs that tie, see the counterexample).  Then
`obtener_siguiente_tarea` raises nothing; it physically removes only entries
whose name is completed; it returns `none` exactly when every pending entry
is completed; and a returned task is not completed, is still in `pending`,
and its priority is at least that of every other not-completed entry. -/
theorem next_task_spec (e : Estado) (hh : IsHeapL e.tareas)
    (hd : ClavesDistintas e.tareas) (hco : Coherente e.tareas) :
    ∃ e' res, obtenerSiguienteTarea e = (e', .ok res) ∧
      (∃ removed, e.tareas.Perm (removed ++ e'.tareas) ∧
        ∀ x ∈ removed, x.2.2.nombre ∈ e.tareas_completadas) ∧
      (res = none ↔ ∀ x ∈ e.tareas, x.2.2.nombre ∈ e.tareas_completadas) ∧
      (∀ t, res = some t → t.nombre ∉ e.tareas_completadas ∧
        (∃ x ∈ e'.tareas, x.2.2 = t) ∧
        (∀ x ∈ e.tareas, x.2.2.nombre ∉ e.tareas_completadas →
          x.2.2.prioridad ≤ t.prioridad)) := by
  obtain ⟨l', res, removed, heq, hperm, hrem, hheap', hdist', hnone, hsome⟩ :=
    obtenerAux_spec e.tareas.length e.tareas e.tareas_completadas hh hd
      (le_refl _)
  have heq2 : obtenerSiguienteTarea e = ({ e with tareas := l' }, .ok res) := by
    unfold obtenerSiguienteTarea
    rw [heq]
  refine ⟨{ e with tareas := l' }, res, heq2, ⟨removed, hperm, hrem⟩, ?_, ?_⟩
  · constructor
    · intro h0 x hx
      have hl' : l' = [] := hnone h0
      subst hl'
      rw [List.append_nil] at hperm
      exact hrem x (hperm.mem_iff.mp hx)
    · intro hall
      cases res with
      | none => rfl
      | some t =>
        obtain ⟨hlen0, hroot, hnotc⟩ := hsome t rfl
        have hrootl : l'.getD 0 dE ∈ l' := getD_zero_mem hlen0
        have hroote : l'.getD 0 dE ∈ e.tareas :=
          hperm.mem_iff.mpr (List.mem_append.mpr (Or.inr hrootl))
        exact absurd (hroot ▸ hall _ hroote) hnotc
  · intro t ht
    obtain ⟨hlen0, hroot, hnotc⟩ := hsome t ht
    refine ⟨hnotc, ⟨l'.getD 0 dE, getD_zero_mem hlen0, hroot⟩, ?_⟩
    intro x hx hxnc
    have hx' : x ∈ l' := by
      rcases List.mem_append.mp (hperm.mem_iff.mp hx) with h | h
      · exact absurd (hrem x h) hxnc
      · exact h
    obtain ⟨i, hi, hix⟩ := List.mem_iff_getElem.mp hx'
    have hmin := isHeap_root_min hheap' i hi
    rw [List.getD_eq_getElem l' dE hi, hix] at hmin
    have h1 : (key (l'.getD 0 dE)).1 ≤ (key x).1 := keyLtB_false_fst hmin
    have hroote : l'.getD 0 dE ∈ e.tareas :=
      hperm.mem_iff.mpr (List.mem_append.mpr (Or.inr (getD_zero_mem hlen0)))
    have hrco := hco _ hroote
    have hxco := hco x hx
    have hkey1 : (key (l'.getD 0 dE)).1 = (l'.getD 0 dE).1 := rfl
    have hkey2 : (key x).1 = x.1 := rfl
    rw [hkey1, hkey2, hrco, hxco, hroot] at h1
    omega

theorem next_task_spec_witness :
    (IsHeapL exW1.tareas ∧ ClavesDistintas exW1.tareas ∧
      Coherente exW1.tareas) ∧
    (∃ e' res, obtenerSiguienteTarea exW1 = (e', .ok res) ∧
      (∃ removed, exW1.tareas.Perm (removed ++ e'.tareas) ∧
        ∀ x ∈ removed, x.2.2.nombre ∈ exW1.tareas_completadas) ∧
      (res = none ↔ ∀ x ∈ exW1.tareas,
        x.2.2.nombre ∈ exW1.tareas_completadas) ∧
      (∀ t, res = some t → t.nombre ∉ exW1.tareas_completadas ∧
        (∃ x ∈ e'.tareas, x.2.2 = t) ∧
        (∀ x ∈ exW1.tareas, x.2.2.nombre ∉ exW1.tareas_completadas →
          x.2.2.prioridad ≤ t.prioridad))) :=
  ⟨⟨by decide, by decide, by decide⟩,
    next_task_spec exW1 (by decide) (by decide) (by decide)⟩

/-- C1, counterexample to the claim as stated: the store holding
`W(9), X(5), Z(5)` — all due `2025-01-10`, with `W` completed — is a
well-formed heap state, and it is reachable: three valid `agregar_tarea`
calls on a fresh store followed by `completar_tarea("W")` build exactly this
heap and completed set.  `pending` still holds the not-completed `X` and `Z`,
yet `obtener_siguiente_tarea` returns neither a task nor `none`: while
pruning `W` it compares the tied entries `X` and `Z` and raises `TypeError`. -/
theorem next_task_spec_cex :
    IsHeapL exC1.tareas ∧
    reachC1.tareas = exC1.tareas ∧
    reachC1.tareas_completadas = exC1.tareas_completadas ∧
    (∃ x ∈ exC1.tareas, x.2.2.nombre ∉ exC1.tareas_completadas) ∧
    (obtenerSiguienteTarea exC1).2 = .error () :=
  ⟨by decide, by decide, by decide, ⟨entradaDe "X" 5, by decide, by decide⟩,
    rfl⟩

/-- C10.  The method never writes the file (so a pruned entry may survive on
disk), never touches the completed set, and — because the C-accelerated
`heapq` sift only swaps entries in place, even when a comparison raises
`TypeError` mid-sift — its only change to `pending` is the physical removal
of entries whose name is completed: the entries missing afterwards all bear
completed names, and every not-completed entry keeps its exact multiplicity,
on the success and on the error path alike. -/
theorem next_task_frame (e : Estado) :
    (obtenerSiguienteTarea e).1.tareas_completadas = e.tareas_completadas ∧
    (obtenerSiguienteTarea e).1.disco = e.disco ∧
    (∃ removed, e.tareas.Perm (removed ++ (obtenerSiguienteTarea e).1.tareas) ∧
      ∀ x ∈ removed, x.2.2.nombre ∈ e.tareas_completadas) ∧
    (∀ x : Entry, x.2.2.nombre ∉ e.tareas_completadas →
      cuenta x (obtenerSiguienteTarea e).1.tareas = cuenta x e.tareas) := by
  obtain ⟨removed, hperm, hrem⟩ :=
    obtenerAux_frame e.tareas.length e.tareas e.tareas_completadas
  have htar : (obtenerSiguienteTarea e).1.tareas
      = (obtenerAux e.tareas.length e.tareas e.tareas_completadas).1 := rfl
  refine ⟨rfl, rfl, ⟨removed, ?_, hrem⟩, ?_⟩
  · rw [htar]
    exact hperm
  · intro x hxnc
    have hxrem : x ∉ removed := fun hx => hxnc (hrem x hx)
    have h1 := cuenta_perm hperm x
    rw [cuenta_append, cuenta_eq_zero_of_not_mem hxrem] at h1
    rw [htar]
    omega

theorem next_task_frame_witness :
    reachC10.tareas = exC10.tareas ∧
    reachC10.tareas_completadas = exC10.tareas_completadas ∧
    (obtenerSiguienteTarea exC10).2 = .error () ∧
    (entradaDe "L" 1).2.2.nombre ∉ exC10.tareas_completadas ∧
    cuenta (entradaDe "L" 1) (obtenerSiguienteTarea exC10).1.tareas
      = cuenta (entradaDe "L" 1) exC10.tareas :=
  ⟨by decide, by decide, rfl, by decide,
    (next_task_frame exC10).2.2.2 (entradaDe "L" 1) (by decide)⟩
